import Mathlib

/-!
Verification of the rag-code retrieval core.

This file gives a shallow embedding, in Lean 4, of the components of the
Guru2308/rag-code repository that the verified properties talk about:
the semantic chunker (merge and split passes), the dependency graph, the
context expander, result fusion (RRF), the Redis-backed sparse index and
its BM25 scorer, the prompt assembler's window fitting, the heuristic
reranker, and the incremental indexer.

Modelling conventions, applied uniformly:
  * Go strings are Lean `String`s, except where the Go code indexes a
    string by byte position (the chunk splitter): there the content is
    modelled as its byte sequence, a `List Nat`.
  * Go `float32`/`float64` arithmetic is modelled over `ℚ`; `math.Log`
    and the file-modification-time recency bonus are opaque parameters,
    since no property below depends on their numeric values.
  * Go `map[string]string` values are association lists with
    last-insert-wins update; Go `map` containers used as sets/tables
    keyed by strings are modelled either as association lists (when the
    code iterates them) or as functions `String → _` (when it only does
    point lookups and updates).
  * `int` is modelled as `ℤ` where a Go value can be negative, `ℕ`
    where it is an index or a length.
  * Effectful dependencies injected through Go interfaces (parser,
    embedder, chunk store, key-value client) are parameters of the
    embedded functions, exactly as they are injected in the source.
-/

namespace RagCode

/-- Lookup in a Go `map[string]string` modelled as an association list. -/
def metaFind (m : List (String × String)) (k : String) : Option String :=
  (m.find? (fun p => p.1 == k)).map Prod.snd

/-- Insert/overwrite in a Go `map[string]string` modelled as an association
list: replace the binding when the key is present, append otherwise. -/
def metaInsert (m : List (String × String)) (k v : String) : List (String × String) :=
  if (m.find? (fun p => p.1 == k)).isSome then
    m.map (fun p => if p.1 == k then (k, v) else p)
  else m ++ [(k, v)]

/-- Copy every binding of `entries` into `m`, later entries overwriting. -/
def metaInsertAll (m entries : List (String × String)) : List (String × String) :=
  entries.foldl (fun acc p => metaInsert acc p.1 p.2) m

/-- domain.CodeChunk (internal/domain/types.go). Timestamps are dropped
(no property mentions them); the float32 embedding vector is a `List ℚ`. -/
structure CodeChunk where
  id : String
  filePath : String
  language : String
  content : String
  chunkType : String
  startLine : Int
  endLine : Int
  metadata : List (String × String)
  dependencies : List String
  embedding : List ℚ
deriving DecidableEq

/-- The domain.ChunkType constants. -/
def ChunkTypeFunction : String := "function"

def ChunkTypeClass : String := "class"

def ChunkTypeMethod : String := "method"

def ChunkTypeImport : String := "import"

def ChunkTypeComment : String := "comment"

def ChunkTypeOther : String := "other"

/-- domain.SearchResult. `chunk` is a Go pointer, hence `Option`. -/
structure SearchResult where
  chunk : Option CodeChunk
  score : ℚ
  source : String
  vectorScore : ℚ
  keywordScore : ℚ
  relevanceScore : ℚ
deriving DecidableEq

/-- The chunk id of a search result; `""` when the chunk pointer is nil.
(The Go code only reads `r.Chunk.ID` on results whose chunk is present.) -/
def chunkIdOf (r : SearchResult) : String :=
  (r.chunk.map CodeChunk.id).getD ""

/- ---------------------------------------------------------------------
Dependency graph (internal/graph).

The spec describes the graph of the most complete source variant:
edges stored redundantly in an outgoing and an incoming adjacency map,
plus a name index.  The copy of graph.go under src/ predates that
variant (it has no incoming map and no GetIncoming), but GetIncoming is
called by the expander and exercised by the tests in src/, so the
bidirectional store is modelled from the spec below.
--------------------------------------------------------------------- -/

/-- graph.Node. -/
structure Node where
  id : String
  type : String
  name : String
  filePath : String
  metadata : List (String × String)
deriving DecidableEq

/-- graph.Edge.  Go names the endpoints `From`/`To`; `from` is a Lean
keyword, so the fields are `fromId`/`toId`. -/
structure Edge where
  fromId : String
  toId : String
  relation : String
deriving DecidableEq

/-- Modelled from the spec: the in-memory dependency graph, with the node
table, the two adjacency maps (outgoing keyed by `from`, incoming keyed by
`to`) and the secondary `name → [node_id]` index.  (The graph.go under
src/ lacks the incoming map; spec §4.5 and the tests fix this shape.) -/
structure Graph where
  nodes : String → Option Node
  outgoing : String → List Edge
  incoming : String → List Edge
  index : String → List String

/-- The empty graph (graph.NewGraph). -/
def Graph.emptyGraph : Graph :=
  { nodes := fun _ => none
    outgoing := fun _ => []
    incoming := fun _ => []
    index := fun _ => [] }

/-- Graph.AddNode: register the node and index it by name when non-empty. -/
def Graph.addNode (g : Graph) (n : Node) : Graph :=
  { g with
    nodes := fun k => if k = n.id then some n else g.nodes k
    index := if n.name = "" then g.index
             else fun k => if k = n.name then g.index k ++ [n.id] else g.index k }

/-- Modelled from the spec: Graph.AddEdge stores the edge redundantly in
the outgoing map under `from` and in the incoming map under `to`. -/
def Graph.addEdge (g : Graph) (f t rel : String) : Graph :=
  let e : Edge := ⟨f, t, rel⟩
  { g with
    outgoing := fun k => if k = f then g.outgoing k ++ [e] else g.outgoing k
    incoming := fun k => if k = t then g.incoming k ++ [e] else g.incoming k }

/-- Modelled from the spec: Graph.GetRelated returns the outgoing
neighbors of `id` whose edge carries `rel`; an empty `rel` matches every
edge.  Edges whose target node is not registered are dropped, as in the
source GetRelated. -/
def Graph.getRelated (g : Graph) (id rel : String) : List Node :=
  ((g.outgoing id).filter (fun e => rel == "" || e.relation == rel)).filterMap
    (fun e => g.nodes e.toId)

/-- Modelled from the spec: Graph.GetIncoming is the mirror image of
GetRelated over the incoming adjacency map. -/
def Graph.getIncoming (g : Graph) (id rel : String) : List Node :=
  ((g.incoming id).filter (fun e => rel == "" || e.relation == rel)).filterMap
    (fun e => g.nodes e.fromId)

/-- A graph-construction call: AddNode or AddEdge. -/
inductive GraphOp where
  | addNode (n : Node)
  | addEdge (f t rel : String)
deriving DecidableEq

/-- Replay a sequence of AddNode/AddEdge calls onto the empty graph. -/
def buildGraph (ops : List GraphOp) : Graph :=
  ops.foldl
    (fun g op =>
      match op with
      | .addNode n => g.addNode n
      | .addEdge f t rel => g.addEdge f t rel)
    Graph.emptyGraph

/-- The edges added by a sequence of graph calls, in call order. -/
def edgesOf (ops : List GraphOp) : List Edge :=
  ops.filterMap
    (fun op =>
      match op with
      | .addNode _ => none
      | .addEdge f t rel => some ⟨f, t, rel⟩)

theorem buildGraph_append (ops : List GraphOp) (op : GraphOp) :
    buildGraph (ops ++ [op]) =
      (match op with
       | .addNode n => (buildGraph ops).addNode n
       | .addEdge f t rel => (buildGraph ops).addEdge f t rel) := by
  simp [buildGraph, List.foldl_append]

theorem buildGraph_outgoing (ops : List GraphOp) (a : String) :
    (buildGraph ops).outgoing a = (edgesOf ops).filter (fun e => e.fromId == a) := by
  induction ops using List.reverseRecOn with
  | nil => simp [buildGraph, edgesOf, Graph.emptyGraph]
  | append_singleton ops op ih =>
      rw [buildGraph_append]
      cases op with
      | addNode n => simpa [Graph.addNode, edgesOf] using ih
      | addEdge f t rel =>
          rw [show edgesOf (ops ++ [GraphOp.addEdge f t rel]) = edgesOf ops ++ [⟨f, t, rel⟩] from
                by simp [edgesOf], List.filter_append]
          by_cases h : a = f
          · subst h
            simp [Graph.addEdge, ih]
          · simp [Graph.addEdge, h, Ne.symm h, ih]

theorem buildGraph_incoming (ops : List GraphOp) (b : String) :
    (buildGraph ops).incoming b = (edgesOf ops).filter (fun e => e.toId == b) := by
  induction ops using List.reverseRecOn with
  | nil => simp [buildGraph, edgesOf, Graph.emptyGraph]
  | append_singleton ops op ih =>
      rw [buildGraph_append]
      cases op with
      | addNode n => simpa [Graph.addNode, edgesOf] using ih
      | addEdge f t rel =>
          rw [show edgesOf (ops ++ [GraphOp.addEdge f t rel]) = edgesOf ops ++ [⟨f, t, rel⟩] from
                by simp [edgesOf], List.filter_append]
          by_cases h : b = t
          · subst h
            simp [Graph.addEdge, ih]
          · simp [Graph.addEdge, h, Ne.symm h, ih]

/-- C3: the dependency graph stores every added edge redundantly, keyed by
its from-node in the outgoing map and by its to-node in the incoming map;
`GetRelated id rel` returns exactly the registered targets of outgoing
edges of `id` carrying `rel`, `GetIncoming id rel` the registered sources
of incoming edges of `id` carrying `rel`, and the empty relation filter
returns all neighbors. -/
theorem graph_stores_edges_redundantly_and_filters_by_relation :
    (∀ (ops : List GraphOp) (a : String),
        (buildGraph ops).outgoing a = (edgesOf ops).filter (fun e => e.fromId == a)) ∧
    (∀ (ops : List GraphOp) (b : String),
        (buildGraph ops).incoming b = (edgesOf ops).filter (fun e => e.toId == b)) ∧
    (∀ (g : Graph) (id rel : String) (n : Node),
        n ∈ g.getRelated id rel ↔
          ∃ e ∈ g.outgoing id, (rel = "" ∨ e.relation = rel) ∧ g.nodes e.toId = some n) ∧
    (∀ (g : Graph) (id rel : String) (n : Node),
        n ∈ g.getIncoming id rel ↔
          ∃ e ∈ g.incoming id, (rel = "" ∨ e.relation = rel) ∧ g.nodes e.fromId = some n) ∧
    (∀ (g : Graph) (id : String),
        g.getRelated id "" = (g.outgoing id).filterMap (fun e => g.nodes e.toId) ∧
        g.getIncoming id "" = (g.incoming id).filterMap (fun e => g.nodes e.fromId)) := by
  refine ⟨buildGraph_outgoing, buildGraph_incoming, ?_, ?_, ?_⟩
  · intro g id rel n
    simp only [Graph.getRelated, List.mem_filterMap, List.mem_filter]
    constructor
    · rintro ⟨e, ⟨he, hrel⟩, hn⟩
      refine ⟨e, he, ?_, hn⟩
      rcases Bool.or_eq_true_iff.mp hrel with h | h
      · exact Or.inl (beq_iff_eq.mp h)
      · exact Or.inr (beq_iff_eq.mp h)
    · rintro ⟨e, he, hrel, hn⟩
      refine ⟨e, ⟨he, ?_⟩, hn⟩
      rcases hrel with h | h
      · simp [h]
      · simp [h]
  · intro g id rel n
    simp only [Graph.getIncoming, List.mem_filterMap, List.mem_filter]
    constructor
    · rintro ⟨e, ⟨he, hrel⟩, hn⟩
      refine ⟨e, he, ?_, hn⟩
      rcases Bool.or_eq_true_iff.mp hrel with h | h
      · exact Or.inl (beq_iff_eq.mp h)
      · exact Or.inr (beq_iff_eq.mp h)
    · rintro ⟨e, he, hrel, hn⟩
      refine ⟨e, ⟨he, ?_⟩, hn⟩
      rcases hrel with h | h
      · simp [h]
      · simp [h]
  · intro g id
    constructor
    · simp [Graph.getRelated]
    · simp [Graph.getIncoming]

/- ---------------------------------------------------------------------
Chunker, merge pass (internal/indexing/chunker.go, MergeRelatedChunks /
mergeTwo of the context-aware variant).

`generateChunkID` builds a sha256 fingerprint of
(file_path, start_line, end_line, content); the hash itself is opaque to
every property below, so the id generator is a parameter `genID`.
--------------------------------------------------------------------- -/

/-- mergeTwo: combine a comment chunk with the following code chunk.
Content is comment, newline, code; metadata is the union with the code
chunk winning collisions, plus merged_from_comment=true; the span is the
comment's start line to the code chunk's end line. -/
def mergeTwo (comment code : CodeChunk) (genID : CodeChunk → String) : CodeChunk :=
  let combinedContent := comment.content ++ "\n" ++ code.content
  let meta :=
    metaInsert (metaInsertAll (metaInsertAll [] comment.metadata) code.metadata)
      "merged_from_comment" "true"
  let merged : CodeChunk :=
    { id := ""
      filePath := code.filePath
      language := code.language
      content := combinedContent
      chunkType := code.chunkType
      startLine := comment.startLine
      endLine := code.endLine
      metadata := meta
      dependencies := comment.dependencies ++ code.dependencies
      embedding := [] }
  { merged with id := genID merged }

/-- The chunk types a leading comment merges into (function/class/method). -/
def isMergeableCode (t : String) : Bool :=
  t == ChunkTypeFunction || t == ChunkTypeClass || t == ChunkTypeMethod

/-- The index-based walk of MergeRelatedChunks.  The Go loop runs
`for i < len(chunks)` advancing `i` by 2 on a merge and 1 otherwise; the
fuel argument bounds the iteration count (`chunks.length` always
suffices since `i` grows by at least one per step). -/
def mergeLoop (genID : CodeChunk → String) (chunks : List CodeChunk) :
    ℕ → ℕ → List CodeChunk → List CodeChunk
  | 0, _, acc => acc
  | fuel + 1, i, acc =>
    if h : i < chunks.length then
      let cur := chunks.get ⟨i, h⟩
      if hnext : cur.chunkType = ChunkTypeComment ∧ i + 1 < chunks.length then
        let next := chunks.get ⟨i + 1, hnext.2⟩
        if isMergeableCode next.chunkType then
          mergeLoop genID chunks fuel (i + 2) (acc ++ [mergeTwo cur next genID])
        else
          mergeLoop genID chunks fuel (i + 1) (acc ++ [cur])
      else
        mergeLoop genID chunks fuel (i + 1) (acc ++ [cur])
    else acc

/-- SemanticChunker.MergeRelatedChunks: merge each comment chunk with the
immediately following function/class/method chunk. -/
def MergeRelatedChunks (genID : CodeChunk → String) (chunks : List CodeChunk) :
    List CodeChunk :=
  if chunks.length = 0 then chunks
  else mergeLoop genID chunks chunks.length 0 []

/-- Structural description of the merge walk, used to reason about
`MergeRelatedChunks`. -/
def mergeGo (genID : CodeChunk → String) : List CodeChunk → List CodeChunk
  | [] => []
  | [c] => [c]
  | c :: next :: rest =>
    if c.chunkType = ChunkTypeComment ∧ isMergeableCode next.chunkType then
      mergeTwo c next genID :: mergeGo genID rest
    else
      c :: mergeGo genID (next :: rest)

theorem mergeLoop_unfold (genID : CodeChunk → String) (chunks : List CodeChunk)
    (fuel i : ℕ) (acc : List CodeChunk) :
    mergeLoop genID chunks (fuel + 1) i acc =
      (if h : i < chunks.length then
        if hnext : (chunks.get ⟨i, h⟩).chunkType = ChunkTypeComment ∧
            i + 1 < chunks.length then
          if isMergeableCode (chunks.get ⟨i + 1, hnext.2⟩).chunkType then
            mergeLoop genID chunks fuel (i + 2)
              (acc ++ [mergeTwo (chunks.get ⟨i, h⟩) (chunks.get ⟨i + 1, hnext.2⟩) genID])
          else
            mergeLoop genID chunks fuel (i + 1) (acc ++ [chunks.get ⟨i, h⟩])
        else
          mergeLoop genID chunks fuel (i + 1) (acc ++ [chunks.get ⟨i, h⟩])
      else acc) := rfl

theorem mergeLoop_eq_mergeGo (genID : CodeChunk → String) (chunks : List CodeChunk) :
    ∀ (fuel i : ℕ) (acc : List CodeChunk), chunks.length - i ≤ fuel →
      mergeLoop genID chunks fuel i acc = acc ++ mergeGo genID (chunks.drop i) := by
  intro fuel
  induction fuel with
  | zero =>
      intro i acc hfuel
      have hlen : chunks.length ≤ i := by omega
      rw [List.drop_eq_nil_of_le hlen]
      simp [mergeLoop, Nat.not_lt.mpr hlen, mergeGo]
  | succ fuel ih =>
      intro i acc hfuel
      rw [mergeLoop_unfold]
      by_cases h : i < chunks.length
      · rw [dif_pos h]
        have hdrop : chunks.drop i = chunks.get ⟨i, h⟩ :: chunks.drop (i + 1) :=
          List.drop_eq_getElem_cons h
        by_cases hc : (chunks.get ⟨i, h⟩).chunkType = ChunkTypeComment ∧
            i + 1 < chunks.length
        · rw [dif_pos hc]
          have hdrop2 : chunks.drop (i + 1) =
              chunks.get ⟨i + 1, hc.2⟩ :: chunks.drop (i + 2) :=
            List.drop_eq_getElem_cons hc.2
          by_cases hm : isMergeableCode (chunks.get ⟨i + 1, hc.2⟩).chunkType = true
          · rw [if_pos hm, ih (i + 2) _ (by omega), hdrop, hdrop2, mergeGo,
              if_pos ⟨hc.1, hm⟩]
            simp
          · rw [if_neg hm, ih (i + 1) _ (by omega), hdrop, hdrop2, mergeGo,
              if_neg (fun hcontra => hm hcontra.2)]
            rw [← hdrop2]
            simp
        · rw [dif_neg hc, ih (i + 1) _ (by omega), hdrop]
          rcases Nat.lt_or_ge (i + 1) chunks.length with h2 | h2
          · have hdrop2 : chunks.drop (i + 1) =
                chunks.get ⟨i + 1, h2⟩ :: chunks.drop (i + 2) :=
              List.drop_eq_getElem_cons h2
            rw [hdrop2, mergeGo, if_neg (fun hcontra => hc ⟨hcontra.1, h2⟩)]
            rw [← hdrop2]
            simp
          · rw [List.drop_eq_nil_of_le h2]
            simp [mergeGo]
      · rw [dif_neg h, List.drop_eq_nil_of_le (Nat.le_of_not_lt h)]
        simp [mergeGo]

theorem MergeRelatedChunks_eq_mergeGo (genID : CodeChunk → String)
    (chunks : List CodeChunk) :
    MergeRelatedChunks genID chunks = mergeGo genID chunks := by
  unfold MergeRelatedChunks
  by_cases h : chunks.length = 0
  · rw [List.length_eq_zero] at h
    simp [h, mergeGo]
  · rw [if_neg h, mergeLoop_eq_mergeGo genID chunks chunks.length 0 [] (by omega)]
    simp

theorem metaFind_cons (hd : String × String) (tl : List (String × String)) (k : String) :
    metaFind (hd :: tl) k = if hd.1 == k then some hd.2 else metaFind tl k := by
  by_cases h : hd.1 == k <;> simp [metaFind, List.find?_cons, h]

theorem metaFind_map_subst (m : List (String × String)) (k v k' : String) (h : k' ≠ k) :
    metaFind (m.map (fun p => if p.1 == k then (k, v) else p)) k' = metaFind m k' := by
  induction m with
  | nil => rfl
  | cons hd tl ih =>
      by_cases hhd : hd.1 == k
      · simp only [List.map_cons, if_pos hhd]
        rw [metaFind_cons, metaFind_cons]
        have h1 : ¬ ((k, v).1 == k') = true := by simpa using Ne.symm h
        have h2 : ¬ (hd.1 == k') = true := by
          have hk : hd.1 = k := beq_iff_eq.mp hhd
          simpa [hk] using Ne.symm h
        rw [if_neg h1, if_neg h2]
        exact ih
      · simp only [List.map_cons, if_neg hhd]
        rw [metaFind_cons, metaFind_cons]
        by_cases hk' : hd.1 == k'
        · simp [hk']
        · rw [if_neg hk', if_neg hk']
          exact ih

theorem metaFind_append_single (m : List (String × String)) (k v k' : String)
    (h : k' ≠ k) : metaFind (m ++ [(k, v)]) k' = metaFind m k' := by
  induction m with
  | nil =>
      rw [List.nil_append, metaFind_cons]
      have h1 : ¬ ((k, v).1 == k') = true := by simpa using Ne.symm h
      simp [h1, metaFind]
  | cons hd tl ih =>
      rw [List.cons_append, metaFind_cons, metaFind_cons]
      by_cases hk' : hd.1 == k'
      · simp [hk']
      · simp [hk', ih]

theorem metaFind_metaInsert_self (m : List (String × String)) (k v : String) :
    metaFind (metaInsert m k v) k = some v := by
  unfold metaInsert
  by_cases hs : (m.find? (fun p => p.1 == k)).isSome
  · rw [if_pos hs]
    induction m with
    | nil => simp [List.find?] at hs
    | cons hd tl ih =>
        by_cases hhd : hd.1 == k
        · simp only [List.map_cons, if_pos hhd]
          rw [metaFind_cons]
          simp
        · simp only [List.map_cons, if_neg hhd]
          rw [metaFind_cons]
          simp only [hhd, if_false]
          rw [List.find?_cons] at hs
          simp only [hhd] at hs
          exact ih hs
  · rw [if_neg hs]
    induction m with
    | nil =>
        rw [List.nil_append, metaFind_cons]
        simp
    | cons hd tl ih =>
        rw [List.find?_cons] at hs
        by_cases hhd : hd.1 == k
        · simp [hhd] at hs
        · simp only [hhd] at hs
          rw [List.cons_append, metaFind_cons]
          simp only [hhd, if_false]
          exact ih hs

theorem metaFind_metaInsert_other (m : List (String × String)) (k v k' : String)
    (h : k' ≠ k) : metaFind (metaInsert m k v) k' = metaFind m k' := by
  unfold metaInsert
  by_cases hs : (m.find? (fun p => p.1 == k)).isSome
  · rw [if_pos hs]
    exact metaFind_map_subst m k v k' h
  · rw [if_neg hs]
    exact metaFind_append_single m k v k' h

theorem metaFind_metaInsertAll_of_not_mem (m entries : List (String × String))
    (k : String) (h : k ∉ entries.map Prod.fst) :
    metaFind (metaInsertAll m entries) k = metaFind m k := by
  induction entries generalizing m with
  | nil => simp [metaInsertAll]
  | cons hd tl ih =>
      simp only [List.map_cons, List.mem_cons] at h
      push_neg at h
      rw [show metaInsertAll m (hd :: tl) = metaInsertAll (metaInsert m hd.1 hd.2) tl from rfl]
      rw [ih _ h.2, metaFind_metaInsert_other _ _ _ _ (Ne.symm (Ne.symm h.1))]

theorem metaFind_metaInsertAll (m entries : List (String × String)) (k : String)
    (hnodup : (entries.map Prod.fst).Nodup) :
    metaFind (metaInsertAll m entries) k =
      (metaFind entries k).orElse (fun _ => metaFind m k) := by
  induction entries generalizing m with
  | nil => simp [metaInsertAll, metaFind]
  | cons hd tl ih =>
      simp only [List.map_cons, List.nodup_cons] at hnodup
      rw [show metaInsertAll m (hd :: tl) = metaInsertAll (metaInsert m hd.1 hd.2) tl from rfl]
      by_cases hk : hd.1 == k
      · have hkk : hd.1 = k := beq_iff_eq.mp hk
        have hnot : k ∉ tl.map Prod.fst := hkk ▸ hnodup.1
        rw [metaFind_metaInsertAll_of_not_mem _ _ _ hnot, hkk,
          metaFind_metaInsert_self]
        rw [show ((hd.1, hd.2) :: tl : List (String × String)) = hd :: tl from by simp] at *
        rw [show metaFind (hd :: tl) k = if hd.1 == k then some hd.2 else metaFind tl k from
              by rw [← metaFind_cons]]
        simp [hk]
      · rw [ih _ hnodup.2]
        rw [show metaFind (hd :: tl) k = if hd.1 == k then some hd.2 else metaFind tl k from
              by rw [← metaFind_cons]]
        simp only [hk, if_false]
        by_cases htl : (metaFind tl k).isSome
        · rcases Option.isSome_iff_exists.mp htl with ⟨v, hv⟩
          simp [hv]
        · have : metaFind tl k = none := Option.not_isSome_iff_eq_none.mp htl
          simp [this, metaFind_metaInsert_other _ _ _ _
            (fun hcontra => absurd (beq_iff_eq.mpr hcontra.symm) (by simpa using hk))]

/-- C5: the merge pass replaces each comment chunk immediately followed by
a function/class/method chunk by their merge — content is comment,
newline, code; span is comment.start_line to code.end_line; metadata is
the union with the code chunk winning collisions plus
merged_from_comment=true — consuming both inputs, and passes every other
chunk through unaltered. -/
theorem merge_pass_merges_comment_with_following_declaration
    (genID : CodeChunk → String) :
    (∀ (c next : CodeChunk) (rest : List CodeChunk),
        c.chunkType = ChunkTypeComment → isMergeableCode next.chunkType = true →
        MergeRelatedChunks genID (c :: next :: rest) =
          mergeTwo c next genID :: MergeRelatedChunks genID rest) ∧
    (∀ (c next : CodeChunk) (rest : List CodeChunk),
        ¬ (c.chunkType = ChunkTypeComment ∧ isMergeableCode next.chunkType = true) →
        MergeRelatedChunks genID (c :: next :: rest) =
          c :: MergeRelatedChunks genID (next :: rest)) ∧
    (∀ c next : CodeChunk,
        (mergeTwo c next genID).content = c.content ++ "\n" ++ next.content ∧
        (mergeTwo c next genID).startLine = c.startLine ∧
        (mergeTwo c next genID).endLine = next.endLine ∧
        metaFind (mergeTwo c next genID).metadata "merged_from_comment" = some "true") ∧
    (∀ (c next : CodeChunk) (k : String),
        (c.metadata.map Prod.fst).Nodup → (next.metadata.map Prod.fst).Nodup →
        k ≠ "merged_from_comment" →
        metaFind (mergeTwo c next genID).metadata k =
          (metaFind next.metadata k).orElse (fun _ => metaFind c.metadata k)) := by
  refine ⟨?_, ?_, ?_, ?_⟩
  · intro c next rest hc hm
    rw [MergeRelatedChunks_eq_mergeGo, MergeRelatedChunks_eq_mergeGo, mergeGo]
    simp [hc, hm]
  · intro c next rest hnot
    rw [MergeRelatedChunks_eq_mergeGo, MergeRelatedChunks_eq_mergeGo, mergeGo]
    rw [if_neg hnot]
  · intro c next
    refine ⟨rfl, rfl, rfl, ?_⟩
    exact metaFind_metaInsert_self _ _ _
  · intro c next k hc hnext hk
    show metaFind
      (metaInsert (metaInsertAll (metaInsertAll [] c.metadata) next.metadata)
        "merged_from_comment" "true") k = _
    rw [metaFind_metaInsert_other _ _ _ _ hk,
      metaFind_metaInsertAll _ _ _ hnext]
    by_cases h : (metaFind next.metadata k).isSome
    · rcases Option.isSome_iff_exists.mp h with ⟨v, hv⟩
      simp [hv]
    · have hnone : metaFind next.metadata k = none := Option.not_isSome_iff_eq_none.mp h
      have hrw : ∀ f : Unit → Option String, (none : Option String).orElse f = f () :=
        fun _ => rfl
      rw [hnone, hrw, hrw, metaFind_metaInsertAll _ _ _ hc]
      show (metaFind c.metadata k).orElse (fun _ => metaFind [] k) = _
      cases metaFind c.metadata k <;> rfl

/-- Concrete comment chunk for the merge witness (spec §8 scenario 1). -/
def wComment : CodeChunk :=
  { id := "", filePath := "foo.py", language := "python", content := "# greet"
    chunkType := ChunkTypeComment, startLine := 1, endLine := 1
    metadata := [("doc", "yes")], dependencies := [], embedding := [] }

/-- Concrete function chunk for the merge witness. -/
def wGreet : CodeChunk :=
  { id := "", filePath := "foo.py", language := "python"
    content := "def greet(): pass"
    chunkType := ChunkTypeFunction, startLine := 2, endLine := 2
    metadata := [("name", "greet")], dependencies := [], embedding := [] }

/-- Trivial id generator for witnesses. -/
def wGen : CodeChunk → String := fun _ => "id"

theorem merge_pass_merges_comment_with_following_declaration_witness :
    wComment.chunkType = ChunkTypeComment ∧
    isMergeableCode wGreet.chunkType = true ∧
    MergeRelatedChunks wGen [wComment, wGreet] =
      mergeTwo wComment wGreet wGen :: MergeRelatedChunks wGen [] ∧
    (wComment.metadata.map Prod.fst).Nodup ∧
    (wGreet.metadata.map Prod.fst).Nodup ∧
    metaFind (mergeTwo wComment wGreet wGen).metadata "name" =
      (metaFind wGreet.metadata "name").orElse
        (fun _ => metaFind wComment.metadata "name") :=
  ⟨rfl, rfl,
    (merge_pass_merges_comment_with_following_declaration wGen).1 wComment wGreet []
      rfl rfl,
    by decide, by decide,
    (merge_pass_merges_comment_with_following_declaration wGen).2.2.2 wComment wGreet
      "name" (by decide) (by decide) (by decide)⟩

/- ---------------------------------------------------------------------
Sparse index (internal/retrieval/redis_index.go).

The Redis keyspace is modelled as one record: posting sets
(`index:token:*`), term frequencies (`tf:*`), document frequencies
(`stats:token:*:df`), document lengths/previews (`doc:*`), and the two
scalars.  Redis counters read as 0 when the key is absent and Incr on an
absent key writes 1, so `df` and `docCount` are plain integers with
default 0; `docLength`/`docContent` use `Option` because RemoveDocument
deletes those keys.  Go map iteration over `doc.Tokens` is modelled as an
association list traversed in order.
--------------------------------------------------------------------- -/

/-- retrieval.IndexedDocument. -/
structure IndexedDocument where
  id : String
  content : String
  length : Int
  tokens : List (String × Int)
deriving DecidableEq

/-- The modelled Redis keyspace of one RedisIndex. -/
structure RedisState where
  posting : String → List String
  tf : String → String → Int
  df : String → Int
  docLength : String → Option Int
  docContent : String → Option String
  docCount : Int
  avgDocLength : ℚ

/-- The empty keyspace. -/
def initRedis : RedisState :=
  { posting := fun _ => []
    tf := fun _ _ => 0
    df := fun _ => 0
    docLength := fun _ => none
    docContent := fun _ => none
    docCount := 0
    avgDocLength := 0 }

/-- Redis SAdd on a set modelled as a duplicate-free list. -/
def saddInsert (l : List String) (x : String) : List String :=
  if x ∈ l then l else l ++ [x]

/-- The per-token pipeline commands of AddDocuments: SAdd the doc onto
the token's posting set, Set the term frequency, Incr the doc
frequency. -/
def addToken (docID : String) (s : RedisState) (p : String × Int) : RedisState :=
  { s with
    posting := fun t => if t = p.1 then saddInsert (s.posting t) docID else s.posting t
    tf := fun t d => if t = p.1 ∧ d = docID then p.2 else s.tf t d
    df := fun t => if t = p.1 then s.df t + 1 else s.df t }

/-- The per-document pipeline commands of AddDocuments: Set length and
content preview (Go slices the first 200 bytes; chars here), then the
token commands. -/
def addDoc (s : RedisState) (doc : IndexedDocument) : RedisState :=
  let s1 :=
    { s with
      docLength := fun d => if d = doc.id then some doc.length else s.docLength d
      docContent := fun d => if d = doc.id then some (doc.content.take 200)
                             else s.docContent d }
  doc.tokens.foldl (addToken doc.id) s1

/-- RedisIndex.AddDocuments.  The GetDocCount/GetAvgDocLength reads used
for the running mean execute before the pipeline, so they observe the
pre-batch scalars. -/
def AddDocuments (s : RedisState) (docs : List IndexedDocument) : RedisState :=
  let oldCount : Int := s.docCount
  let oldAvg : ℚ := s.avgDocLength
  let s' := docs.foldl addDoc s
  let s'' := { s' with docCount := s'.docCount + docs.length }
  if 0 < docs.length then
    let totalLength : Int := (docs.map (fun d => d.length)).sum
    { s'' with
      avgDocLength := (oldAvg * oldCount + totalLength) / (oldCount + docs.length) }
  else s''

/-- RedisIndex.RemoveDocument: delete the doc's length and preview keys
and decrement doc_count.  (The posting sets, tf and df entries are left
untouched — the source comments that a doc→tokens mapping would be
needed to clean them.) -/
def RemoveDocument (s : RedisState) (docID : String) : RedisState :=
  { s with
    docLength := fun d => if d = docID then none else s.docLength d
    docContent := fun d => if d = docID then none else s.docContent d
    docCount := s.docCount - 1 }

/-- RedisIndex.GetTermFrequency (redis.Nil reads as 0; no store errors in
the model, so the error side of the Go return is `Except.error`-free). -/
def GetTermFrequency (s : RedisState) (token docID : String) : Except Unit Int :=
  .ok (s.tf token docID)

/-- RedisIndex.GetDocFrequency. -/
def GetDocFrequency (s : RedisState) (token : String) : Except Unit Int :=
  .ok (s.df token)

/-- RedisIndex.GetDocCount. -/
def GetDocCount (s : RedisState) : Except Unit Int :=
  .ok s.docCount

/-- RedisIndex.GetAvgDocLength. -/
def GetAvgDocLength (s : RedisState) : Except Unit ℚ :=
  .ok s.avgDocLength

/-- RedisIndex.GetDocLength (absent key reads as 0). -/
def GetDocLength (s : RedisState) (docID : String) : Except Unit Int :=
  .ok ((s.docLength docID).getD 0)

/- ---------------------------------------------------------------------
BM25 scorer (internal/retrieval/bm25.go).

float64 arithmetic is over ℚ; `math.Log` is the opaque parameter `logf`
(no property below depends on its values).  Division by a zero
average-doc-length yields 0 in ℚ where Go would produce an infinity;
that branch is never reached by the verified properties.
--------------------------------------------------------------------- -/

/-- The body of the token loop of BM25Scorer.Score: errors and zero
tf/df skip the token (`continue`), otherwise add `idf * tfComponent`. -/
def bm25TokenStep (logf : ℚ → ℚ) (k1 b : ℚ) (s : RedisState)
    (docCount : Int) (avgDocLength : ℚ) (docLength : Int) (docID : String)
    (score : ℚ) (token : String) : ℚ :=
  match GetTermFrequency s token docID with
  | .error _ => score
  | .ok tf =>
    if tf = 0 then score
    else
      match GetDocFrequency s token with
      | .error _ => score
      | .ok df =>
        if df = 0 then score
        else
          let idf := logf (((docCount : ℚ) - (df : ℚ) + 1/2) / ((df : ℚ) + 1/2) + 1)
          let denominator :=
            (tf : ℚ) + k1 * (1 - b + b * ((docLength : ℚ) / avgDocLength))
          score + idf * ((tf : ℚ) * (k1 + 1) / denominator)

/-- BM25Scorer.Score. -/
def bm25Score (logf : ℚ → ℚ) (k1 b : ℚ) (s : RedisState)
    (queryTokens : List String) (docID : String) : Except Unit ℚ :=
  match GetDocCount s with
  | .error e => .error e
  | .ok docCount =>
    if docCount = 0 then .ok 0
    else
      match GetAvgDocLength s with
      | .error e => .error e
      | .ok avgDocLength =>
        match GetDocLength s docID with
        | .error e => .error e
        | .ok docLength =>
          .ok (queryTokens.foldl
            (bm25TokenStep logf k1 b s docCount avgDocLength docLength docID) 0)

theorem bm25TokenStep_skip (logf : ℚ → ℚ) (k1 b : ℚ) (s : RedisState)
    (docCount : Int) (avg : ℚ) (docLength : Int) (docID : String)
    (score : ℚ) (token : String)
    (h : s.tf token docID = 0 ∨ s.df token = 0) :
    bm25TokenStep logf k1 b s docCount avg docLength docID score token = score := by
  unfold bm25TokenStep GetTermFrequency GetDocFrequency
  rcases h with h | h
  · simp [h]
  · by_cases htf : s.tf token docID = 0
    · simp [htf]
    · simp [htf, h]

theorem bm25_foldl_filter (logf : ℚ → ℚ) (k1 b : ℚ) (s : RedisState)
    (docCount : Int) (avg : ℚ) (docLength : Int) (docID : String)
    (tokens : List String) (init : ℚ) :
    tokens.foldl (bm25TokenStep logf k1 b s docCount avg docLength docID) init =
      (tokens.filter (fun t => decide (s.tf t docID ≠ 0 ∧ s.df t ≠ 0))).foldl
        (bm25TokenStep logf k1 b s docCount avg docLength docID) init := by
  induction tokens generalizing init with
  | nil => rfl
  | cons hd tl ih =>
      by_cases h : s.tf hd docID ≠ 0 ∧ s.df hd ≠ 0
      all_goals by_cases h1 : s.tf hd docID = 0
      · exact absurd h1 h.1
      · by_cases h2 : s.df hd = 0
        · rw [List.foldl_cons,
            List.filter_cons_of_neg (by simp [h1, h2]),
            bm25TokenStep_skip _ _ _ _ _ _ _ _ _ _ (Or.inr h2)]
          exact ih init
        · rw [List.foldl_cons, List.filter_cons_of_pos (by simp [h1, h2]),
            List.foldl_cons]
          exact ih _
      · rw [List.foldl_cons,
          List.filter_cons_of_neg (by simp [h1]),
          bm25TokenStep_skip _ _ _ _ _ _ _ _ _ _ (Or.inl h1)]
        exact ih init
      · by_cases h2 : s.df hd = 0
        · rw [List.foldl_cons,
            List.filter_cons_of_neg (by simp [h1, h2]),
            bm25TokenStep_skip _ _ _ _ _ _ _ _ _ _ (Or.inr h2)]
          exact ih init
        · rw [List.foldl_cons, List.filter_cons_of_pos (by simp [h1, h2]),
            List.foldl_cons]
          exact ih _

/-- C8: BM25 never errors; a zero collection gives score 0; tokens with
zero term frequency or zero document frequency contribute exactly 0 (the
score equals the score over the remaining tokens); and a document in
which every query token has tf = 0 scores exactly 0. -/
theorem bm25_edge_cases_degenerate_to_zero :
    (∀ (logf : ℚ → ℚ) (k1 b : ℚ) (s : RedisState) (q : List String) (d : String),
        ∃ v : ℚ, bm25Score logf k1 b s q d = .ok v) ∧
    (∀ (logf : ℚ → ℚ) (k1 b : ℚ) (s : RedisState) (q : List String) (d : String),
        s.docCount = 0 → bm25Score logf k1 b s q d = .ok 0) ∧
    (∀ (logf : ℚ → ℚ) (k1 b : ℚ) (s : RedisState) (q : List String) (d : String),
        bm25Score logf k1 b s q d =
          bm25Score logf k1 b s
            (q.filter (fun t => decide (s.tf t d ≠ 0 ∧ s.df t ≠ 0))) d) ∧
    (∀ (logf : ℚ → ℚ) (k1 b : ℚ) (s : RedisState) (q : List String) (d : String),
        (∀ t ∈ q, s.tf t d = 0) → bm25Score logf k1 b s q d = .ok 0) := by
  refine ⟨?_, ?_, ?_, ?_⟩
  · intro logf k1 b s q d
    unfold bm25Score GetDocCount GetAvgDocLength GetDocLength
    by_cases h : s.docCount = 0
    · exact ⟨0, by simp [h]⟩
    · refine ⟨q.foldl (bm25TokenStep logf k1 b s s.docCount s.avgDocLength
        ((s.docLength d).getD 0) d) 0, ?_⟩
      simp [h]
  · intro logf k1 b s q d h
    unfold bm25Score GetDocCount
    simp [h]
  · intro logf k1 b s q d
    unfold bm25Score GetDocCount GetAvgDocLength GetDocLength
    by_cases h : s.docCount = 0
    · simp [h]
    · simp only [h, if_false]
      rw [bm25_foldl_filter]
  · intro logf k1 b s q d h
    unfold bm25Score GetDocCount GetAvgDocLength GetDocLength
    by_cases hdc : s.docCount = 0
    · simp [hdc]
    · simp only [hdc, if_false]
      have : ∀ init : ℚ, q.foldl
          (bm25TokenStep logf k1 b s s.docCount s.avgDocLength
            ((s.docLength d).getD 0) d) init = init := by
        induction q with
        | nil => intro init; rfl
        | cons hd tl ih =>
            intro init
            rw [List.foldl_cons,
              bm25TokenStep_skip _ _ _ _ _ _ _ _ _ _ (Or.inl (h hd (by simp)))]
            exact ih (fun t ht => h t (by simp [ht])) init
      rw [this 0]

theorem bm25_edge_cases_degenerate_to_zero_witness :
    (initRedis.docCount = 0 ∧
      bm25Score (fun x => x) (12/10) (3/4) initRedis ["hello"] "d1" = .ok 0) ∧
    ((∀ t ∈ ["hello"], initRedis.tf t "d1" = 0) ∧
      bm25Score (fun x => x) (12/10) (3/4) initRedis ["hello"] "d1" = .ok 0) :=
  ⟨⟨rfl, bm25_edge_cases_degenerate_to_zero.2.1 (fun x => x) (12/10) (3/4) initRedis
      ["hello"] "d1" rfl⟩,
    ⟨fun _ _ => rfl,
      bm25_edge_cases_degenerate_to_zero.2.2.2 (fun x => x) (12/10) (3/4) initRedis
        ["hello"] "d1" (fun _ _ => rfl)⟩⟩

/- ---------------------------------------------------------------------
C7 machinery: sequences of sparse-index calls and their invariants.
--------------------------------------------------------------------- -/

/-- A call against the sparse index. -/
inductive SparseOp where
  | add (docs : List IndexedDocument)
  | remove (docID : String)

/-- Execute one sparse-index call. -/
def applySparseOp (s : RedisState) (op : SparseOp) : RedisState :=
  match op with
  | .add docs => AddDocuments s docs
  | .remove docID => RemoveDocument s docID

/-- Execute a sequence of sparse-index calls. -/
def applySparseOps (ops : List SparseOp) (s : RedisState) : RedisState :=
  ops.foldl applySparseOp s

theorem addToken_df_mono (d0 : String) (s : RedisState) (p : String × Int) (t : String) :
    s.df t ≤ (addToken d0 s p).df t := by
  unfold addToken
  by_cases h : t = p.1 <;> simp [h]

theorem foldTokens_df_mono (d0 : String) (l : List (String × Int)) (s : RedisState)
    (t : String) : s.df t ≤ (l.foldl (addToken d0) s).df t := by
  induction l generalizing s with
  | nil => exact le_refl _
  | cons p tl ih => exact le_trans (addToken_df_mono d0 s p t) (ih _)

theorem foldTokens_posting_mono (d0 : String) (l : List (String × Int)) (s : RedisState)
    (t x : String) (h : x ∈ s.posting t) : x ∈ (l.foldl (addToken d0) s).posting t := by
  induction l generalizing s with
  | nil => exact h
  | cons p tl ih =>
      refine ih _ ?_
      unfold addToken saddInsert
      by_cases ht : t = p.1
      · simp only [ht, if_pos rfl]
        by_cases hd : d0 ∈ s.posting p.1
        · simpa [hd] using (ht ▸ h)
        · simp only [hd, if_false]
          exact List.mem_append_left _ (ht ▸ h)
      · simpa [ht] using h

theorem foldTokens_not_key (d0 : String) (l : List (String × Int)) (s : RedisState)
    (t : String) (h : t ∉ l.map Prod.fst) :
    (l.foldl (addToken d0) s).posting t = s.posting t ∧
    (l.foldl (addToken d0) s).df t = s.df t ∧
    (∀ d, (l.foldl (addToken d0) s).tf t d = s.tf t d) := by
  induction l generalizing s with
  | nil => exact ⟨rfl, rfl, fun _ => rfl⟩
  | cons p tl ih =>
      simp only [List.map_cons, List.mem_cons] at h
      push_neg at h
      have step := ih (addToken d0 s p) h.2
      refine ⟨?_, ?_, ?_⟩
      · rw [List.foldl_cons, step.1]
        unfold addToken
        simp [h.1]
      · rw [List.foldl_cons, step.2.1]
        unfold addToken
        simp [h.1]
      · intro d
        rw [List.foldl_cons, step.2.2 d]
        unfold addToken
        simp [h.1]

theorem foldTokens_tf_other (d0 : String) (l : List (String × Int)) (s : RedisState)
    (t d : String) (h : d ≠ d0) : (l.foldl (addToken d0) s).tf t d = s.tf t d := by
  induction l generalizing s with
  | nil => rfl
  | cons p tl ih =>
      rw [List.foldl_cons, ih]
      unfold addToken
      simp [h]

theorem foldTokens_posting_mem (d0 : String) (l : List (String × Int)) (s : RedisState)
    (t : String) (h : t ∈ l.map Prod.fst) :
    d0 ∈ (l.foldl (addToken d0) s).posting t := by
  induction l generalizing s with
  | nil => simp at h
  | cons p tl ih =>
      by_cases ht : t ∈ tl.map Prod.fst
      · exact ih _ ht
      · have hp : t = p.1 := by
          simp only [List.map_cons, List.mem_cons] at h
          tauto
        rw [List.foldl_cons]
        refine foldTokens_posting_mono d0 tl _ t d0 ?_
        unfold addToken saddInsert
        simp only [hp, if_pos rfl]
        by_cases hd : d0 ∈ s.posting p.1
        · rw [if_pos hd]
          exact hd
        · rw [if_neg hd]
          simp

theorem foldTokens_tf_pos (d0 : String) (l : List (String × Int)) (s : RedisState)
    (t : String) (hpos : ∀ p ∈ l, (0 : Int) < p.2) (h : t ∈ l.map Prod.fst) :
    0 < (l.foldl (addToken d0) s).tf t d0 := by
  induction l generalizing s with
  | nil => simp at h
  | cons p tl ih =>
      by_cases ht : t ∈ tl.map Prod.fst
      · exact ih _ (fun q hq => hpos q (List.mem_cons_of_mem _ hq)) ht
      · have hp : t = p.1 := by
          simp only [List.map_cons, List.mem_cons] at h
          tauto
        rw [List.foldl_cons, (foldTokens_not_key d0 tl _ t ht).2.2 d0]
        unfold addToken
        simp only [hp, if_pos (And.intro rfl rfl)]
        exact hpos p (by simp)

theorem foldTokens_df_incr (d0 : String) (l : List (String × Int)) (s : RedisState)
    (t : String) (h : t ∈ l.map Prod.fst) :
    s.df t + 1 ≤ (l.foldl (addToken d0) s).df t := by
  induction l generalizing s with
  | nil => simp at h
  | cons p tl ih =>
      by_cases ht : t ∈ tl.map Prod.fst
      · refine le_trans ?_ (ih _ ht)
        have := addToken_df_mono d0 s p t
        omega
      · have hp : t = p.1 := by
          simp only [List.map_cons, List.mem_cons] at h
          tauto
        rw [List.foldl_cons, (foldTokens_not_key d0 tl _ t ht).2.1]
        unfold addToken
        simp [hp]

/-- Posting-set / df characterization of one token fold, under
duplicate-free token keys and a doc id absent from the posting set. -/
theorem foldTokens_posting_df (d0 : String) (l : List (String × Int)) (s : RedisState)
    (t : String) (hkeys : (l.map Prod.fst).Nodup) (hfresh : d0 ∉ s.posting t) :
    (l.foldl (addToken d0) s).posting t =
      s.posting t ++ (if t ∈ l.map Prod.fst then [d0] else []) ∧
    (l.foldl (addToken d0) s).df t =
      s.df t + (if t ∈ l.map Prod.fst then 1 else 0) := by
  induction l generalizing s with
  | nil => simp
  | cons p tl ih =>
      simp only [List.map_cons, List.nodup_cons] at hkeys
      by_cases hp : t = p.1
      · have htl : t ∉ tl.map Prod.fst := hp ▸ hkeys.1
        have hfreshp : d0 ∉ s.posting p.1 := hp ▸ hfresh
        have hrest := foldTokens_not_key d0 tl (addToken d0 s p) t htl
        rw [List.foldl_cons]
        constructor
        · rw [hrest.1]
          unfold addToken saddInsert
          simp [hp, hfreshp]
        · rw [hrest.2.1]
          unfold addToken
          simp [hp]
      · have hfresh' : d0 ∉ (addToken d0 s p).posting t := by
          unfold addToken
          simpa [hp] using hfresh
        have hstep := ih (addToken d0 s p) hkeys.2 hfresh'
        rw [List.foldl_cons]
        constructor
        · rw [hstep.1]
          unfold addToken
          by_cases htl : t ∈ tl.map Prod.fst <;> simp [hp, htl]
        · rw [hstep.2]
          unfold addToken
          by_cases htl : t ∈ tl.map Prod.fst <;> simp [hp, htl]

theorem addToken_frame (d0 : String) (s : RedisState) (p : String × Int) :
    (addToken d0 s p).docLength = s.docLength ∧
    (addToken d0 s p).docContent = s.docContent ∧
    (addToken d0 s p).docCount = s.docCount ∧
    (addToken d0 s p).avgDocLength = s.avgDocLength := ⟨rfl, rfl, rfl, rfl⟩

theorem foldTokens_frame (d0 : String) (l : List (String × Int)) (s : RedisState) :
    (l.foldl (addToken d0) s).docLength = s.docLength ∧
    (l.foldl (addToken d0) s).docCount = s.docCount := by
  induction l generalizing s with
  | nil => exact ⟨rfl, rfl⟩
  | cons p tl ih =>
      rw [List.foldl_cons]
      exact ⟨((ih _).1).trans rfl, ((ih _).2).trans rfl⟩

theorem addDoc_posting_tf_df (s : RedisState) (doc : IndexedDocument) :
    (∀ t, (addDoc s doc).posting t = (doc.tokens.foldl (addToken doc.id)
        { s with
          docLength := fun d => if d = doc.id then some doc.length else s.docLength d
          docContent := fun d => if d = doc.id then some (doc.content.take 200)
                                 else s.docContent d }).posting t) := by
  intro t
  rfl

theorem addDoc_docCount (s : RedisState) (doc : IndexedDocument) :
    (addDoc s doc).docCount = s.docCount :=
  (foldTokens_frame doc.id doc.tokens _).2

theorem addDoc_docLength (s : RedisState) (doc : IndexedDocument) (d : String) :
    (addDoc s doc).docLength d = if d = doc.id then some doc.length else s.docLength d := by
  unfold addDoc
  rw [(foldTokens_frame doc.id doc.tokens _).1]

theorem addDoc_posting_mono (s : RedisState) (doc : IndexedDocument) (t x : String)
    (h : x ∈ s.posting t) : x ∈ (addDoc s doc).posting t :=
  foldTokens_posting_mono doc.id doc.tokens _ t x h

theorem addDoc_tf_other (s : RedisState) (doc : IndexedDocument) (t d : String)
    (h : d ≠ doc.id) : (addDoc s doc).tf t d = s.tf t d :=
  foldTokens_tf_other doc.id doc.tokens _ t d h

theorem addDoc_df_mono (s : RedisState) (doc : IndexedDocument) (t : String) :
    s.df t ≤ (addDoc s doc).df t :=
  foldTokens_df_mono doc.id doc.tokens _ t

theorem addDoc_posting_df (s : RedisState) (doc : IndexedDocument) (t : String)
    (hkeys : (doc.tokens.map Prod.fst).Nodup) (hfresh : doc.id ∉ s.posting t) :
    (addDoc s doc).posting t =
      s.posting t ++ (if t ∈ doc.tokens.map Prod.fst then [doc.id] else []) ∧
    (addDoc s doc).df t =
      s.df t + (if t ∈ doc.tokens.map Prod.fst then 1 else 0) :=
  foldTokens_posting_df doc.id doc.tokens _ t hkeys hfresh

theorem foldDocs_docCount (docs : List IndexedDocument) (s : RedisState) :
    (docs.foldl addDoc s).docCount = s.docCount := by
  induction docs generalizing s with
  | nil => rfl
  | cons doc tl ih => rw [List.foldl_cons, ih, addDoc_docCount]

theorem foldDocs_docLength_isSome (docs : List IndexedDocument) (s : RedisState)
    (id : String) :
    ((docs.foldl addDoc s).docLength id).isSome ↔
      (id ∈ docs.map IndexedDocument.id ∨ (s.docLength id).isSome) := by
  induction docs generalizing s with
  | nil => simp
  | cons doc tl ih =>
      rw [List.foldl_cons, ih]
      rw [addDoc_docLength]
      by_cases h : id = doc.id <;> simp [h, or_assoc]

theorem foldDocs_posting_mono (docs : List IndexedDocument) (s : RedisState)
    (t x : String) (h : x ∈ s.posting t) : x ∈ (docs.foldl addDoc s).posting t := by
  induction docs generalizing s with
  | nil => exact h
  | cons doc tl ih => exact ih _ (addDoc_posting_mono s doc t x h)

theorem foldDocs_tf_other (docs : List IndexedDocument) (s : RedisState)
    (t d : String) (h : d ∉ docs.map IndexedDocument.id) :
    (docs.foldl addDoc s).tf t d = s.tf t d := by
  induction docs generalizing s with
  | nil => rfl
  | cons doc tl ih =>
      simp only [List.map_cons, List.mem_cons] at h
      push_neg at h
      rw [List.foldl_cons, ih _ h.2, addDoc_tf_other _ _ _ _ h.1]

theorem foldDocs_df_mono (docs : List IndexedDocument) (s : RedisState) (t : String) :
    s.df t ≤ (docs.foldl addDoc s).df t := by
  induction docs generalizing s with
  | nil => exact le_refl _
  | cons doc tl ih => exact le_trans (addDoc_df_mono s doc t) (ih _)

theorem foldDocs_df_nonneg (docs : List IndexedDocument) (s : RedisState) (t : String)
    (h : 0 ≤ s.df t) : 0 ≤ (docs.foldl addDoc s).df t :=
  le_trans h (foldDocs_df_mono docs s t)

/-- Posting/df characterization of a whole batch: each fresh document id
lands once on the posting set of each of its tokens, and df grows by the
number of batch documents containing the token. -/
theorem foldDocs_posting_df (docs : List IndexedDocument) (s : RedisState) (t : String)
    (hkeys : ∀ d ∈ docs, (d.tokens.map Prod.fst).Nodup)
    (hids : (docs.map IndexedDocument.id).Nodup)
    (hfresh : ∀ d ∈ docs, d.id ∉ s.posting t) :
    (docs.foldl addDoc s).posting t =
      s.posting t ++
        (docs.filter (fun d => decide (t ∈ d.tokens.map Prod.fst))).map
          IndexedDocument.id ∧
    (docs.foldl addDoc s).df t =
      s.df t +
        ((docs.filter (fun d => decide (t ∈ d.tokens.map Prod.fst))).length : Int) := by
  induction docs generalizing s with
  | nil => simp
  | cons doc tl ih =>
      simp only [List.map_cons, List.nodup_cons] at hids
      have hhead := addDoc_posting_df s doc t (hkeys doc (by simp))
        (hfresh doc (by simp))
      have htl : ∀ d ∈ tl, d.id ∉ (addDoc s doc).posting t := by
        intro d hd
        rw [hhead.1]
        intro hmem
        rcases List.mem_append.mp hmem with hmem | hmem
        · exact hfresh d (by simp [hd]) hmem
        · have : d.id = doc.id := by
            by_cases hc : t ∈ doc.tokens.map Prod.fst
            · simpa [hc] using hmem
            · simp [hc] at hmem
          exact hids.1 (this ▸ List.mem_map_of_mem IndexedDocument.id hd)
      have hrest := ih (addDoc s doc) (fun d hd => hkeys d (by simp [hd])) hids.2 htl
      rw [List.foldl_cons]
      constructor
      · rw [hrest.1, hhead.1]
        by_cases hc : t ∈ doc.tokens.map Prod.fst
        · rw [List.filter_cons_of_pos (by simpa using hc)]
          simp [hc]
        · rw [List.filter_cons_of_neg (by simpa using hc)]
          simp [hc]
      · rw [hrest.2, hhead.2]
        by_cases hc : t ∈ doc.tokens.map Prod.fst
        · rw [List.filter_cons_of_pos (by simpa using hc)]
          simp only [List.length_cons, hc, if_true]
          push_cast
          ring
        · rw [List.filter_cons_of_neg (by simpa using hc)]
          simp [hc]

/-- After AddDocuments, every (term, doc) pair of the batch is recorded:
the doc is on the term's posting set, its term frequency is positive, and
the term's document frequency is at least one. -/
theorem addDocuments_records_batch (docs : List IndexedDocument) (s : RedisState)
    (hids : (docs.map IndexedDocument.id).Nodup)
    (hpos : ∀ d ∈ docs, ∀ p ∈ d.tokens, (0 : Int) < p.2)
    (hdf : ∀ t, 0 ≤ s.df t) :
    ∀ d ∈ docs, ∀ p ∈ d.tokens,
      d.id ∈ (docs.foldl addDoc s).posting p.1 ∧
      0 < (docs.foldl addDoc s).tf p.1 d.id ∧
      1 ≤ (docs.foldl addDoc s).df p.1 := by
  induction docs generalizing s with
  | nil => intro d hd; simp at hd
  | cons doc tl ih =>
      intro d hd p hp
      simp only [List.map_cons, List.nodup_cons] at hids
      rcases List.mem_cons.mp hd with hd | hd
      · subst hd
        have hkey : p.1 ∈ d.tokens.map Prod.fst := List.mem_map_of_mem Prod.fst hp
        refine ⟨?_, ?_, ?_⟩
        · rw [List.foldl_cons]
          exact foldDocs_posting_mono tl _ p.1 d.id
            (foldTokens_posting_mem d.id d.tokens _ p.1 hkey)
        · rw [List.foldl_cons, foldDocs_tf_other tl _ p.1 d.id hids.1]
          exact foldTokens_tf_pos d.id d.tokens _ p.1
            (fun q hq => hpos d (by simp) q hq) hkey
        · rw [List.foldl_cons]
          refine le_trans ?_ (foldDocs_df_mono tl _ p.1)
          have hincr := foldTokens_df_incr d.id d.tokens
            { s with
              docLength := fun x => if x = d.id then some d.length else s.docLength x
              docContent := fun x => if x = d.id then some (d.content.take 200)
                                     else s.docContent x } p.1 hkey
          have hb : RedisState.df
              { s with
                docLength := fun x => if x = d.id then some d.length else s.docLength x
                docContent := fun x => if x = d.id then some (d.content.take 200)
                                       else s.docContent x } p.1 = s.df p.1 := rfl
          rw [hb] at hincr
          have h0 := hdf p.1
          show 1 ≤ (d.tokens.foldl (addToken d.id)
            { s with
              docLength := fun x => if x = d.id then some d.length else s.docLength x
              docContent := fun x => if x = d.id then some (d.content.take 200)
                                     else s.docContent x }).df p.1
          omega
      · rw [List.foldl_cons]
        exact ih (addDoc s doc) hids.2 (fun d' hd' q hq => hpos d' (by simp [hd']) q hq)
          (fun t => le_trans (hdf t) (addDoc_df_mono s doc t)) d hd p hp

theorem AddDocuments_proj (s : RedisState) (docs : List IndexedDocument) :
    (AddDocuments s docs).posting = (docs.foldl addDoc s).posting ∧
    (AddDocuments s docs).tf = (docs.foldl addDoc s).tf ∧
    (AddDocuments s docs).df = (docs.foldl addDoc s).df ∧
    (AddDocuments s docs).docLength = (docs.foldl addDoc s).docLength ∧
    (AddDocuments s docs).docCount = (docs.foldl addDoc s).docCount + docs.length := by
  unfold AddDocuments
  by_cases h : 0 < docs.length <;> simp [h]

/-- Consistency of the derived statistics with the posting sets, relative
to the history of added ids and removed ids: metadata-key liveness agrees
with the history, doc_count counts the live ids, and each df equals its
posting-set size. -/
def SparseInv (s : RedisState) (added removed : List String) : Prop :=
  (∀ id, (s.docLength id).isSome ↔ (id ∈ added ∧ id ∉ removed)) ∧
  s.docCount = ((added.filter (fun x => decide (x ∉ removed))).length : Int) ∧
  (∀ t, s.df t = ((s.posting t).length : Int)) ∧
  (∀ t, ∀ d ∈ s.posting t, d ∈ added) ∧
  (∀ t, (s.posting t).Nodup)

/-- The call sequences under which the sparse-index statistics stay
consistent: every added document id is fresh (never added before, in this
or an earlier batch), token maps are duplicate-free with positive
frequencies, and every removal targets a live id. -/
inductive ValidOps : List String → List String → List SparseOp → Prop where
  | nil (added removed : List String) : ValidOps added removed []
  | add (added removed : List String) (docs : List IndexedDocument)
      (rest : List SparseOp) :
      (docs.map IndexedDocument.id).Nodup →
      (∀ d ∈ docs, d.id ∉ added) →
      (∀ d ∈ docs, (d.tokens.map Prod.fst).Nodup) →
      (∀ d ∈ docs, ∀ p ∈ d.tokens, (0 : Int) < p.2) →
      ValidOps (added ++ docs.map IndexedDocument.id) removed rest →
      ValidOps added removed (SparseOp.add docs :: rest)
  | remove (added removed : List String) (id : String) (rest : List SparseOp) :
      id ∈ added → id ∉ removed →
      ValidOps added (removed ++ [id]) rest →
      ValidOps added removed (SparseOp.remove id :: rest)

theorem sparseInv_add (s : RedisState) (added removed : List String)
    (docs : List IndexedDocument)
    (hInv : SparseInv s added removed)
    (hremsub : ∀ id ∈ removed, id ∈ added)
    (hids : (docs.map IndexedDocument.id).Nodup)
    (hfreshadd : ∀ d ∈ docs, d.id ∉ added)
    (hkeys : ∀ d ∈ docs, (d.tokens.map Prod.fst).Nodup) :
    SparseInv (AddDocuments s docs) (added ++ docs.map IndexedDocument.id) removed := by
  obtain ⟨hdl, hdc, hdf, hsub, hnd⟩ := hInv
  obtain ⟨hp, htf, hdfp, hdlp, hdcp⟩ := AddDocuments_proj s docs
  have hremids : ∀ id ∈ docs.map IndexedDocument.id, id ∉ removed := by
    intro id hid hrem
    rcases List.mem_map.mp hid with ⟨d, hd, rfl⟩
    exact hfreshadd d hd (hremsub _ hrem)
  refine ⟨?_, ?_, ?_, ?_, ?_⟩
  · intro id
    rw [hdlp, foldDocs_docLength_isSome, hdl id]
    constructor
    · rintro (h | ⟨h1, h2⟩)
      · exact ⟨List.mem_append_right _ h, hremids id h⟩
      · exact ⟨List.mem_append_left _ h1, h2⟩
    · rintro ⟨h1, h2⟩
      rcases List.mem_append.mp h1 with h1 | h1
      · exact Or.inr ⟨h1, h2⟩
      · exact Or.inl h1
  · rw [hdcp, foldDocs_docCount, hdc, List.filter_append]
    have hall : (docs.map IndexedDocument.id).filter (fun x => decide (x ∉ removed)) =
        docs.map IndexedDocument.id :=
      List.filter_eq_self.mpr (fun x hx => by simpa using hremids x hx)
    rw [hall]
    simp
  · intro t
    have hfreshp : ∀ d ∈ docs, d.id ∉ s.posting t := by
      intro d hd hmem
      exact hfreshadd d hd (hsub t d.id hmem)
    obtain ⟨hpt, hdft⟩ := foldDocs_posting_df docs s t hkeys hids hfreshp
    rw [hdfp, hp, hdft, hpt, hdf t, List.length_append, List.length_map]
    push_cast
    ring
  · intro t d hd
    have hfreshp : ∀ d ∈ docs, d.id ∉ s.posting t := by
      intro d hd hmem
      exact hfreshadd d hd (hsub t d.id hmem)
    rw [hp, (foldDocs_posting_df docs s t hkeys hids hfreshp).1] at hd
    rcases List.mem_append.mp hd with hd | hd
    · exact List.mem_append_left _ (hsub t d hd)
    · refine List.mem_append_right _ ?_
      rcases List.mem_map.mp hd with ⟨d', hd', rfl⟩
      exact List.mem_map_of_mem IndexedDocument.id (List.mem_of_mem_filter hd')
  · intro t
    have hfreshp : ∀ d ∈ docs, d.id ∉ s.posting t := by
      intro d hd hmem
      exact hfreshadd d hd (hsub t d.id hmem)
    rw [hp, (foldDocs_posting_df docs s t hkeys hids hfreshp).1]
    refine List.Nodup.append (hnd t) ?_ ?_
    · exact List.Nodup.sublist
        (List.Sublist.map IndexedDocument.id (List.filter_sublist docs)) hids
    · intro x hx hx'
      rcases List.mem_map.mp hx' with ⟨d', hd', rfl⟩
      exact hfreshp d' (List.mem_of_mem_filter hd') hx

theorem sparseInv_remove (s : RedisState) (added removed : List String) (id : String)
    (hInv : SparseInv s added removed)
    (hadded : added.Nodup) (hid : id ∈ added) (hnid : id ∉ removed) :
    SparseInv (RemoveDocument s id) added (removed ++ [id]) := by
  obtain ⟨hdl, hdc, hdf, hsub, hnd⟩ := hInv
  refine ⟨?_, ?_, hdf, hsub, hnd⟩
  · intro x
    show (if x = id then none else s.docLength x).isSome ↔ _
    by_cases hx : x = id
    · subst hx
      simp
    · rw [if_neg hx, hdl x]
      have : (x ∈ removed ++ [id]) ↔ x ∈ removed := by
        simp [hx]
      rw [this]
  · show s.docCount - 1 = _
    have hsplit : added.filter (fun x => decide (x ∉ removed ++ [id])) =
        (added.filter (fun x => decide (x ∉ removed))).filter
          (fun x => decide (x ≠ id)) := by
      rw [List.filter_filter]
      refine List.filter_congr ?_
      intro x _
      by_cases h1 : x ∈ removed <;> by_cases h2 : x = id <;> simp [h1, h2]
    rw [hsplit]
    set l := added.filter (fun x => decide (x ∉ removed)) with hl
    have hllnd : l.Nodup := List.Nodup.filter _ hadded
    have hidl : id ∈ l := by
      rw [hl, List.mem_filter]
      exact ⟨hid, by simpa using hnid⟩
    have herase : l.filter (fun x => decide (x ≠ id)) = l.erase id := by
      rw [List.Nodup.erase_eq_filter hllnd]
      refine List.filter_congr ?_
      intro x _
      by_cases h : x = id <;> simp [h]
    rw [herase, List.length_erase_of_mem hidl, hdc]
    have : 1 ≤ l.length := List.length_pos.mpr (List.ne_nil_of_mem hidl)
    push_cast [Nat.cast_sub this]
    ring

theorem sparse_ops_inv (ops : List SparseOp) :
    ∀ (added removed : List String) (s : RedisState),
      ValidOps added removed ops → added.Nodup → (∀ id ∈ removed, id ∈ added) →
      SparseInv s added removed →
      ∃ added' removed', added'.Nodup ∧ (∀ id ∈ removed', id ∈ added') ∧
        SparseInv (applySparseOps ops s) added' removed' := by
  induction ops with
  | nil => exact fun added removed s _ h1 h2 h3 => ⟨added, removed, h1, h2, h3⟩
  | cons op rest ih =>
      intro added removed s hvalid hnodup hsubr hinv
      cases hvalid with
      | add _ _ docs _ hids hfresh hkeys hpos hrest =>
          refine ih _ _ _ hrest ?_ ?_
            (sparseInv_add s added removed docs hinv hsubr hids hfresh hkeys)
          · refine List.Nodup.append hnodup (by simpa using hids) ?_
            intro x hx hx'
            rcases List.mem_map.mp hx' with ⟨d, hd, rfl⟩
            exact hfresh d hd hx
          · intro x hx
            exact List.mem_append_left _ (hsubr x hx)
      | remove _ _ id _ hid hnid hrest =>
          refine ih _ _ _ hrest hnodup ?_
            (sparseInv_remove s added removed id hinv hnodup hid hnid)
          intro x hx
          rcases List.mem_append.mp hx with hx | hx
          · exact hsubr x hx
          · simpa using (List.mem_singleton.mp hx) ▸ hid

theorem sparseInv_init : SparseInv initRedis [] [] := by
  refine ⟨?_, ?_, ?_, ?_, ?_⟩ <;> simp [initRedis]

/-- C7 (amended): provided every AddDocuments batch carries fresh,
pairwise-distinct document ids with duplicate-free token maps and
positive frequencies, and every RemoveDocument targets a live id, the
statistics stay consistent: each df[t] equals the posting-set size of t,
and doc_count equals the number of live documents; and after any
AddDocuments, every (term, doc) pair of the batch has the doc in the
term's posting set, a positive tf, and df at least 1. -/
theorem sparse_index_stats_consistent_for_fresh_histories :
    (∀ ops : List SparseOp, ValidOps [] [] ops →
      (∀ t, (applySparseOps ops initRedis).df t =
        (((applySparseOps ops initRedis).posting t).length : Int)) ∧
      (∃ live : List String, live.Nodup ∧
        (∀ id, ((applySparseOps ops initRedis).docLength id).isSome ↔ id ∈ live) ∧
        (applySparseOps ops initRedis).docCount = (live.length : Int))) ∧
    (∀ (s : RedisState) (docs : List IndexedDocument),
      (docs.map IndexedDocument.id).Nodup →
      (∀ d ∈ docs, ∀ p ∈ d.tokens, (0 : Int) < p.2) →
      (∀ t, 0 ≤ s.df t) →
      ∀ d ∈ docs, ∀ p ∈ d.tokens,
        d.id ∈ (AddDocuments s docs).posting p.1 ∧
        0 < (AddDocuments s docs).tf p.1 d.id ∧
        1 ≤ (AddDocuments s docs).df p.1) := by
  constructor
  · intro ops hvalid
    obtain ⟨added', removed', hnd, hsubr, hinv⟩ :=
      sparse_ops_inv ops [] [] initRedis hvalid (by simp) (by simp) sparseInv_init
    obtain ⟨hdl, hdc, hdf, _, _⟩ := hinv
    refine ⟨hdf, added'.filter (fun x => decide (x ∉ removed')), ?_, ?_, hdc⟩
    · exact List.Nodup.filter _ hnd
    · intro id
      rw [hdl id, List.mem_filter]
      simp
  · intro s docs hids hpos hdf d hd p hp
    obtain ⟨hpproj, htfproj, hdfproj, _, _⟩ := AddDocuments_proj s docs
    rw [hpproj, htfproj, hdfproj]
    exact addDocuments_records_batch docs s hids hpos hdf d hd p hp

/-- The document used by the C7 counterexample. -/
def dupDoc : IndexedDocument :=
  { id := "d", content := "t", length := 1, tokens := [("t", 1)] }

/-- C7 counterexample: adding the same document twice (as any re-index of
an unchanged chunk id does) leaves df["t"] = 2 while the posting set of
"t" still holds the single document, and doc_count = 2 with only one
live document — so the claimed invariant over arbitrary
AddDocuments/RemoveDocument sequences is false. -/
theorem sparse_index_stats_consistency_counterexample :
    (applySparseOps [SparseOp.add [dupDoc], SparseOp.add [dupDoc]] initRedis).df "t" ≠
      (((applySparseOps [SparseOp.add [dupDoc], SparseOp.add [dupDoc]]
        initRedis).posting "t").length : Int) ∧
    (applySparseOps [SparseOp.add [dupDoc], SparseOp.add [dupDoc]]
      initRedis).posting "t" = ["d"] ∧
    (applySparseOps [SparseOp.add [dupDoc], SparseOp.add [dupDoc]]
      initRedis).df "t" = 2 ∧
    (applySparseOps [SparseOp.add [dupDoc], SparseOp.add [dupDoc]]
      initRedis).docCount = 2 := by
  refine ⟨?_, ?_, ?_, ?_⟩ <;> decide

/-- The batch used by the C7 witness. -/
def wDoc : IndexedDocument :=
  { id := "w", content := "tok tok", length := 2, tokens := [("tok", 2)] }

theorem sparse_index_stats_consistent_witness :
    (∀ t, (applySparseOps [SparseOp.add [wDoc], SparseOp.remove "w"] initRedis).df t =
      (((applySparseOps [SparseOp.add [wDoc], SparseOp.remove "w"]
        initRedis).posting t).length : Int)) ∧
    ("w" ∈ (AddDocuments initRedis [wDoc]).posting "tok" ∧
      0 < (AddDocuments initRedis [wDoc]).tf "tok" "w" ∧
      1 ≤ (AddDocuments initRedis [wDoc]).df "tok") := by
  have hvalid : ValidOps [] [] [SparseOp.add [wDoc], SparseOp.remove "w"] := by
    refine ValidOps.add [] [] [wDoc] _ (by simp) (by simp) ?_ ?_ ?_
    · intro d hd
      rcases List.mem_singleton.mp hd with rfl
      simp [wDoc]
    · intro d hd q hq
      rcases List.mem_singleton.mp hd with rfl
      simp only [wDoc, List.mem_singleton] at hq
      subst hq
      norm_num
    · refine ValidOps.remove _ _ "w" _ (by simp [wDoc]) (by simp) (ValidOps.nil _ _)
  refine ⟨(sparse_index_stats_consistent_for_fresh_histories.1 _ hvalid).1, ?_⟩
  refine sparse_index_stats_consistent_for_fresh_histories.2 initRedis [wDoc]
    (by simp) ?_ (fun t => le_refl 0) wDoc (by simp) ("tok", 2) (by simp [wDoc])
  intro d hd q hq
  rcases List.mem_singleton.mp hd with rfl
  simp only [wDoc, List.mem_singleton] at hq
  subst hq
  norm_num

/- ---------------------------------------------------------------------
Prompt assembler, window fitting (internal/prompt/prompt.go).

Only the fields that fitToWindow reads are modelled; the Go template and
metadata header are not involved in any verified property.  The Go
budget computation `int(float64(maxTokens*charsPerToken) * 0.8)` equals
integer `4*(maxTokens*charsPerToken)/5` for every attainable size (0.8
rounds to a double a half-ulp above 4/5, and the products involved stay
far below the 2^52 range where that offset could cross an integer).
--------------------------------------------------------------------- -/

/-- prompt.TemplateGenerator (tmpl and model omitted). -/
structure TemplateGenerator where
  maxTokens : Int
  charsPerToken : Int

/-- Total content characters of a result list (nil chunks count 0). -/
def totalContentChars (l : List SearchResult) : Int :=
  (l.map (fun r => ((r.chunk.map (fun c => (c.content.length : Int))).getD 0))).sum

/-- TemplateGenerator.sortByRelevance: a copy sorted descending by
RelevanceScore (Go sort.Slice is unstable; insertion sort realizes one
order consistent with the comparator). -/
def sortByRelevance (results : List SearchResult) : List SearchResult :=
  List.insertionSort (fun a b => b.relevanceScore ≤ a.relevanceScore) results

/-- The accumulation loop of fitToWindow: skip nil chunks, stop at the
first result that would push the running character count past the budget
— unless nothing has been kept yet. -/
def fitLoop (budget : Int) : List SearchResult → Int → List SearchResult →
    List SearchResult
  | [], _, fitted => fitted
  | r :: rest, used, fitted =>
    match r.chunk with
    | none => fitLoop budget rest used fitted
    | some ch =>
      let chunkChars : Int := ch.content.length
      if budget < used + chunkChars ∧ fitted.length ≠ 0 then fitted
      else fitLoop budget rest (used + chunkChars) (fitted ++ [r])

/-- TemplateGenerator.fitToWindow. -/
def fitToWindow (g : TemplateGenerator) (results : List SearchResult) :
    List SearchResult :=
  if g.maxTokens ≤ 0 ∨ results.length = 0 then results
  else fitLoop (4 * (g.maxTokens * g.charsPerToken) / 5) results 0 []

instance : IsTotal SearchResult (fun a b => b.relevanceScore ≤ a.relevanceScore) :=
  ⟨fun a b => le_total b.relevanceScore a.relevanceScore⟩

instance : IsTrans SearchResult (fun a b => b.relevanceScore ≤ a.relevanceScore) :=
  ⟨fun _ _ _ h1 h2 => le_trans h2 h1⟩

theorem fitLoop_cons_some (budget : Int) (r : SearchResult) (rest : List SearchResult)
    (used : Int) (acc : List SearchResult) (ch : CodeChunk) (hch : r.chunk = some ch) :
    fitLoop budget (r :: rest) used acc =
      (if budget < used + (ch.content.length : Int) ∧ acc.length ≠ 0 then acc
       else fitLoop budget rest (used + (ch.content.length : Int)) (acc ++ [r])) := by
  simp only [fitLoop, hch]

theorem fitLoop_spec (budget : Int) :
    ∀ (rs : List SearchResult) (used : Int) (acc : List SearchResult),
      ∃ pre, fitLoop budget rs used acc = acc ++ pre ∧
        pre <+: rs.filter (fun r => r.chunk.isSome) ∧
        (acc ≠ [] → used ≤ budget → used + totalContentChars pre ≤ budget) := by
  intro rs
  induction rs with
  | nil =>
      intro used acc
      exact ⟨[], by simp [fitLoop], List.nil_prefix, fun _ h => by
        simpa [totalContentChars] using h⟩
  | cons r rest ih =>
      intro used acc
      match hch : r.chunk with
      | none =>
          obtain ⟨pre, h1, h2, h3⟩ := ih used acc
          exact ⟨pre, by simpa [fitLoop, hch] using h1, by simpa [hch] using h2, h3⟩
      | some ch =>
          rw [fitLoop_cons_some budget r rest used acc ch hch]
          by_cases hbrk : budget < used + (ch.content.length : Int) ∧ acc.length ≠ 0
          · rw [if_pos hbrk]
            exact ⟨[], by simp, List.nil_prefix, fun _ h => by
              simpa [totalContentChars] using h⟩
          · rw [if_neg hbrk]
            obtain ⟨pre, h1, h2, h3⟩ := ih (used + (ch.content.length : Int)) (acc ++ [r])
            refine ⟨r :: pre, ?_, ?_, ?_⟩
            · rw [h1]
              simp
            · rw [List.filter_cons_of_pos (by simp [hch])]
              exact List.cons_prefix_cons.mpr ⟨rfl, h2⟩
            · intro hacc hused
              have hne : ¬ (budget < used + (ch.content.length : Int)) := by
                intro hlt
                exact hbrk ⟨hlt, fun h0 => hacc (List.length_eq_zero.mp h0)⟩
              have hrec := h3 (by simp) (by omega)
              have htc : totalContentChars (r :: pre) =
                  (ch.content.length : Int) + totalContentChars pre := by
                simp [totalContentChars, hch]
              omega

theorem fitLoop_saturated (budget : Int) :
    ∀ (rs : List SearchResult) (used : Int) (acc : List SearchResult),
      acc ≠ [] → budget < used → fitLoop budget rs used acc = acc := by
  intro rs
  induction rs with
  | nil => intro used acc _ _; rfl
  | cons r rest ih =>
      intro used acc hacc hlt
      match hch : r.chunk with
      | none => simpa [fitLoop, hch] using ih used acc hacc hlt
      | some ch =>
          have hchars : (0 : Int) ≤ (ch.content.length : Int) := by positivity
          rw [fitLoop_cons_some budget r rest used acc ch hch, if_pos]
          exact ⟨by omega, fun h0 => hacc (List.length_eq_zero.mp h0)⟩

theorem fitLoop_top (budget : Int) (hb : 0 ≤ budget) :
    ∀ rs : List SearchResult,
      fitLoop budget rs 0 [] <+: rs.filter (fun r => r.chunk.isSome) ∧
      (totalContentChars (fitLoop budget rs 0 []) ≤ budget ∨
        (fitLoop budget rs 0 [] = (rs.filter (fun r => r.chunk.isSome)).take 1 ∧
          budget < totalContentChars (fitLoop budget rs 0 []))) := by
  intro rs
  induction rs with
  | nil => exact ⟨List.nil_prefix, Or.inl (by simp [fitLoop, totalContentChars, hb])⟩
  | cons r rest ih =>
      match hch : r.chunk with
      | none =>
          have hstep : fitLoop budget (r :: rest) 0 [] = fitLoop budget rest 0 [] := by
            simp [fitLoop, hch]
          have hfil : (r :: rest).filter (fun r => r.chunk.isSome) =
              rest.filter (fun r => r.chunk.isSome) := by
            rw [List.filter_cons_of_neg (by simp [hch])]
          rw [hstep, hfil]
          exact ih
      | some ch =>
          have hstep : fitLoop budget (r :: rest) 0 [] =
              fitLoop budget rest (0 + (ch.content.length : Int)) ([] ++ [r]) := by
            simp [fitLoop, hch]
          have hfil : (r :: rest).filter (fun r => r.chunk.isSome) =
              r :: rest.filter (fun r => r.chunk.isSome) :=
            List.filter_cons_of_pos (by simp [hch])
          by_cases hfit : (ch.content.length : Int) ≤ budget
          · obtain ⟨pre, h1, h2, h3⟩ :=
              fitLoop_spec budget rest (0 + (ch.content.length : Int)) ([] ++ [r])
            have hsum := h3 (by simp) (by omega)
            rw [hstep, h1, hfil]
            constructor
            · exact List.cons_prefix_cons.mpr ⟨rfl, by simpa using h2⟩
            · left
              have : totalContentChars ([] ++ [r] ++ pre) =
                  (ch.content.length : Int) + totalContentChars pre := by
                simp [totalContentChars, hch]
              omega
          · rw [hstep, fitLoop_saturated budget rest _ _ (by simp) (by omega), hfil]
            refine ⟨by simp, ?_⟩
            right
            constructor
            · simp
            · have : totalContentChars ([] ++ [r]) = (ch.content.length : Int) := by
                simp [totalContentChars, hch]
              omega

/-- C9: with a positive token budget T and the default 4 chars per token,
fitToWindow applied to the relevance-sorted results keeps a prefix of the
sorted list (highest-ranked results; nil-chunk results are skipped) whose
total content characters divided by 4 stay within 0.8·T — except that
when even the single highest-ranked result exceeds the budget, exactly
that one result is kept. -/
theorem prompt_fit_to_window_respects_budget (g : TemplateGenerator)
    (results : List SearchResult) (hT : 0 < g.maxTokens) (hcpt : g.charsPerToken = 4) :
    List.Sorted (fun a b => b.relevanceScore ≤ a.relevanceScore)
      (sortByRelevance results) ∧
    fitToWindow g (sortByRelevance results) <+:
      (sortByRelevance results).filter (fun r => r.chunk.isSome) ∧
    ((totalContentChars (fitToWindow g (sortByRelevance results)) : ℚ) / 4 ≤
        (8 / 10) * (g.maxTokens : ℚ) ∨
      (fitToWindow g (sortByRelevance results) =
          ((sortByRelevance results).filter (fun r => r.chunk.isSome)).take 1 ∧
        (8 / 10) * (g.maxTokens : ℚ) <
          (totalContentChars (fitToWindow g (sortByRelevance results)) : ℚ) / 4)) := by
  refine ⟨List.sorted_insertionSort _ _, ?_⟩
  set sorted := sortByRelevance results with hsorted
  by_cases hempty : sorted.length = 0
  · rw [List.length_eq_zero] at hempty
    rw [show fitToWindow g sorted = sorted from by simp [fitToWindow, hempty], hempty]
    refine ⟨List.nil_prefix, Or.inl ?_⟩
    rw [show totalContentChars [] = 0 from rfl]
    have : (0 : ℚ) ≤ (8 / 10) * (g.maxTokens : ℚ) := by positivity
    simpa using this
  · have hguard : ¬ (g.maxTokens ≤ 0 ∨ sorted.length = 0) := by
      push_neg
      exact ⟨by omega, hempty⟩
    set B : Int := 4 * (g.maxTokens * g.charsPerToken) / 5 with hB
    have hB16 : 4 * (g.maxTokens * g.charsPerToken) = 16 * g.maxTokens := by
      rw [hcpt]
      ring
    have hbudget : (0 : Int) ≤ B := by
      rw [hB, hB16]
      positivity
    have hfit : fitToWindow g sorted = fitLoop B sorted 0 [] := by
      unfold fitToWindow
      rw [if_neg hguard]
    obtain ⟨hpre, hbd⟩ := fitLoop_top B hbudget sorted
    rw [hfit]
    refine ⟨hpre, ?_⟩
    have hlow : 5 * B ≤ 16 * g.maxTokens := by
      rw [hB, hB16]
      omega
    have hhigh : 16 * g.maxTokens < 5 * B + 5 := by
      rw [hB, hB16]
      omega
    have hlowq : (5 : ℚ) * (B : ℚ) ≤ 16 * (g.maxTokens : ℚ) := by exact_mod_cast hlow
    have hhighq : 16 * (g.maxTokens : ℚ) < 5 * (B : ℚ) + 5 := by exact_mod_cast hhigh
    rcases hbd with hbd | ⟨heq, hgt⟩
    · left
      have hq : (totalContentChars (fitLoop B sorted 0 []) : ℚ) ≤ (B : ℚ) := by
        exact_mod_cast hbd
      linarith
    · right
      refine ⟨heq, ?_⟩
      have hgt1 : B + 1 ≤ totalContentChars (fitLoop B sorted 0 []) := by omega
      have hq : (B : ℚ) + 1 ≤ (totalContentChars (fitLoop B sorted 0 []) : ℚ) := by
        exact_mod_cast hgt1
      linarith

/-- Concrete results for the C9 witness: two one-char contents under a
budget that admits both. -/
def wRes1 : SearchResult :=
  { chunk := some { wGreet with content := "a" }, score := 1, source := "vector"
    vectorScore := 1, keywordScore := 0, relevanceScore := 1 }

/-- Second witness result. -/
def wRes2 : SearchResult :=
  { chunk := some { wGreet with content := "bb" }, score := 1, source := "vector"
    vectorScore := 0, keywordScore := 1, relevanceScore := 2 }

theorem prompt_fit_to_window_respects_budget_witness :
    (0 : Int) < (10 : Int) ∧
    ((4 : Int) = 4) ∧
    (fitToWindow ⟨10, 4⟩ (sortByRelevance [wRes1, wRes2]) <+:
      (sortByRelevance [wRes1, wRes2]).filter (fun r => r.chunk.isSome)) :=
  ⟨by norm_num, rfl,
    (prompt_fit_to_window_respects_budget ⟨10, 4⟩ [wRes1, wRes2]
      (by norm_num) rfl).2.1⟩

/- ---------------------------------------------------------------------
Heuristic reranker (internal/reranker/reranker.go, the multi-factor
variant with priority paths and recency).

float32 products are over ℚ.  The recency bonus reads the file's
modification time through os.Stat and decays it exponentially; both the
file system and math.Exp are outside the embedding, so the whole factor
is the oracle `recencyOracle` (the code guarantees it only multiplies
the score, which is all the verified property uses).
--------------------------------------------------------------------- -/

/-- Go strings.Fields: split around runs of whitespace. -/
def goFields (s : String) : List String :=
  (s.split (fun c => c.isWhitespace)).filter (fun t => t ≠ "")

/-- Go strings.Contains on the underlying character sequences. -/
def strContains (s sub : String) : Bool :=
  decide (sub.data <:+: s.data)

/-- reranker.HeuristicReranker (recencyHalfLife folded into the oracle). -/
structure HeuristicReranker where
  weights : List (String × ℚ)
  priorityPaths : List String
  recencyOracle : String → ℚ

/-- The chunk-type weights installed by NewHeuristicReranker. -/
def defaultWeights : List (String × ℚ) :=
  [(ChunkTypeFunction, 12/10), (ChunkTypeClass, 11/10), (ChunkTypeMethod, 115/100),
   (ChunkTypeImport, 8/10), (ChunkTypeComment, 1/2), (ChunkTypeOther, 1)]

/-- The score loop body of HeuristicReranker.Rerank for one result with a
present chunk: type weight, exact content match ×1.5, token-coverage
factor, path token ×1.1, priority path ×1.15, recency. -/
def heuristicScore (r : HeuristicReranker) (queryLower : String)
    (queryTokens : List String) (res : SearchResult) (ch : CodeChunk) : ℚ :=
  let score0 := res.score
  let score1 :=
    match (r.weights.find? (fun p => p.1 == ch.chunkType)).map Prod.snd with
    | some w => score0 * w
    | none => score0
  let contentLower := ch.content.toLower
  let score2 := if strContains contentLower queryLower then score1 * (3/2) else score1
  let matchedTokens :=
    (queryTokens.filter (fun t => decide (3 ≤ t.length) && strContains contentLower t)).length
  let score3 :=
    if 0 < queryTokens.length ∧ 0 < matchedTokens then
      score2 * (1 + (3/10) * (matchedTokens : ℚ) / (queryTokens.length : ℚ))
    else score2
  let pathLower := ch.filePath.toLower
  let score4 :=
    if queryTokens.any (fun t => decide (3 ≤ t.length) && strContains pathLower t) then
      score3 * (11/10)
    else score3
  let score5 :=
    if r.priorityPaths.any (fun pat => strContains pathLower pat.toLower) then
      score4 * (115/100)
    else score4
  score5 * r.recencyOracle ch.filePath

/-- HeuristicReranker.Rerank: write the recomputed heuristic score into
RelevanceScore of every result with a present chunk, then sort descending
by RelevanceScore (Go sort.Slice on the same slice; insertion sort
realizes one comparator-consistent order). -/
def Rerank (r : HeuristicReranker) (query : String) (results : List SearchResult) :
    List SearchResult :=
  if results.length = 0 then results
  else
    let queryLower := query.toLower
    let queryTokens := goFields queryLower
    let scored := results.map (fun res =>
      match res.chunk with
      | none => res
      | some ch =>
          { res with relevanceScore := heuristicScore r queryLower queryTokens res ch })
    List.insertionSort (fun a b => b.relevanceScore ≤ a.relevanceScore) scored

/-- Every field of a search result except RelevanceScore. -/
def stripRelevance (res : SearchResult) : Option CodeChunk × ℚ × ℚ × ℚ × String :=
  (res.chunk, res.score, res.vectorScore, res.keywordScore, res.source)

/-- C10: Rerank returns a permutation of the input list in which each
result has been rescored — RelevanceScore of a result with a present
chunk is exactly the recomputed heuristic score — and no other field
changes: the rescored list agrees with the input on chunk, score,
vector/keyword scores and source, position by position. -/
theorem rerank_permutes_and_touches_only_relevance (r : HeuristicReranker)
    (query : String) (results : List SearchResult) :
    (Rerank r query results).Perm
      (results.map (fun res =>
        match res.chunk with
        | none => res
        | some ch =>
            { res with relevanceScore :=
                heuristicScore r query.toLower (goFields query.toLower) res ch })) ∧
    (results.map (fun res =>
      match res.chunk with
      | none => res
      | some ch =>
          { res with relevanceScore :=
              heuristicScore r query.toLower (goFields query.toLower) res ch })).map
        stripRelevance = results.map stripRelevance := by
  constructor
  · unfold Rerank
    by_cases h : results.length = 0
    · rw [if_pos h, List.length_eq_zero.mp h]
      exact List.Perm.refl _
    · rw [if_neg h]
      exact List.perm_insertionSort _ _
  · rw [List.map_map]
    refine List.map_congr_left ?_
    intro res _
    match hch : res.chunk with
    | none => simp [stripRelevance, hch]
    | some ch => simp [stripRelevance, hch]

/- ---------------------------------------------------------------------
RRF fusion (internal/retrieval/fusion.go, reciprocalRankFusion).

The Go `scores` map with its random iteration order is modelled as an
association list in first-seen insertion order; the final sort is by
fused score, so the only order the map could influence is among ties,
which the verified properties leave free.  float32 is over ℚ.
--------------------------------------------------------------------- -/

/-- retrieval.fusionScore. -/
structure FusionScoreData where
  chunk : Option CodeChunk
  vectorScore : ℚ
  keywordScore : ℚ
  rrfScore : ℚ
  vectorRank : Int
  keywordRank : Int
deriving DecidableEq

/-- The `scores` map of reciprocalRankFusion. -/
abbrev FusionMap := List (String × FusionScoreData)

/-- Map lookup. -/
def fsFind (m : FusionMap) (k : String) : Option FusionScoreData :=
  (m.find? (fun p => p.1 == k)).map Prod.snd

/-- In-place mutation of the entry at a key (`scores[chunkID].field = …`). -/
def fsUpdate (m : FusionMap) (k : String) (f : FusionScoreData → FusionScoreData) :
    FusionMap :=
  m.map (fun p => if p.1 == k then (p.1, f p.2) else p)

/-- The keys of the map, in insertion order. -/
def fsKeys (m : FusionMap) : List String := m.map Prod.fst

theorem fsFind_update_self (m : FusionMap) (k : String)
    (f : FusionScoreData → FusionScoreData) :
    fsFind (fsUpdate m k f) k = (fsFind m k).map f := by
  induction m with
  | nil => rfl
  | cons p tl ih =>
      by_cases h : p.1 == k
      · rw [show fsUpdate (p :: tl) k f = (p.1, f p.2) :: fsUpdate tl k f from by
              unfold fsUpdate
              rw [List.map_cons, if_pos h]]
        have h1 : fsFind ((p.1, f p.2) :: fsUpdate tl k f) k = some (f p.2) := by
          simp [fsFind, List.find?_cons, h]
        have h2 : fsFind (p :: tl) k = some p.2 := by
          simp [fsFind, List.find?_cons, h]
        rw [h1, h2]
        rfl
      · rw [show fsUpdate (p :: tl) k f = p :: fsUpdate tl k f from by
              unfold fsUpdate
              rw [List.map_cons, if_neg h]]
        simp only [fsFind, List.find?_cons, h, if_false]
        exact ih

theorem fsFind_update_other (m : FusionMap) (k k' : String)
    (f : FusionScoreData → FusionScoreData) (h : k' ≠ k) :
    fsFind (fsUpdate m k f) k' = fsFind m k' := by
  induction m with
  | nil => rfl
  | cons p tl ih =>
      by_cases hp : p.1 == k
      · have hk : p.1 = k := beq_iff_eq.mp hp
        have hk' : ¬ (p.1 == k') = true := by simp [hk, Ne.symm h]
        simp only [fsUpdate, List.map_cons, if_pos hp]
        simp only [fsFind, List.find?_cons]
        have : ¬ ((k, f p.2).1 == k') = true := by simp [Ne.symm h]
        simp only [hk, this, hk', if_false]
        exact ih
      · simp only [fsUpdate, List.map_cons, if_neg hp]
        simp only [fsFind, List.find?_cons]
        by_cases hk' : p.1 == k'
        · simp [hk']
        · simp only [hk', if_false]
          exact ih

theorem fsFind_append_self (m : FusionMap) (k : String) (v : FusionScoreData)
    (h : fsFind m k = none) : fsFind (m ++ [(k, v)]) k = some v := by
  induction m with
  | nil => simp [fsFind, List.find?]
  | cons p tl ih =>
      simp only [fsFind, List.find?_cons] at h ⊢
      by_cases hp : p.1 == k
      · simp [hp] at h
      · simp only [hp, if_false] at h ⊢
        rw [List.cons_append] at *
        simp only [List.find?_cons, hp]
        exact ih h

theorem fsFind_append_other (m : FusionMap) (k k' : String) (v : FusionScoreData)
    (h : k' ≠ k) : fsFind (m ++ [(k, v)]) k' = fsFind m k' := by
  induction m with
  | nil =>
      simp only [List.nil_append, fsFind, List.find?_cons]
      have : ¬ ((k, v).1 == k') = true := by simp [Ne.symm h]
      simp [this, List.find?]
  | cons p tl ih =>
      rw [List.cons_append]
      simp only [fsFind, List.find?_cons]
      by_cases hp : p.1 == k'
      · simp [hp]
      · simp only [hp, if_false]
        exact ih

theorem fsKeys_update (m : FusionMap) (k : String)
    (f : FusionScoreData → FusionScoreData) : fsKeys (fsUpdate m k f) = fsKeys m := by
  induction m with
  | nil => rfl
  | cons p tl ih =>
      simp only [fsUpdate, fsKeys, List.map_cons] at ih ⊢
      by_cases hp : p.1 == k
      · rw [if_pos hp]
        have : (k, f p.2).1 = p.1 := (beq_iff_eq.mp hp).symm
        rw [this] at *
        exact congrArg _ ih
      · rw [if_neg hp]
        exact congrArg _ ih

theorem fsFind_eq_none_iff (m : FusionMap) (k : String) :
    fsFind m k = none ↔ k ∉ fsKeys m := by
  induction m with
  | nil => simp [fsFind, fsKeys, List.find?]
  | cons p tl ih =>
      simp only [fsFind, List.find?_cons, fsKeys, List.map_cons, List.mem_cons]
      by_cases hp : p.1 == k
      · simp [hp, beq_iff_eq.mp hp]
      · simp only [hp, if_false]
        have hne : ¬ k = p.1 := fun hc => by simp [hc] at hp
        show fsFind tl k = none ↔ ¬ (k = p.1 ∨ k ∈ fsKeys tl)
        rw [ih]
        simp [hne]

theorem fsFind_mem_of_nodup (m : FusionMap) (p : String × FusionScoreData)
    (hnd : (fsKeys m).Nodup) (hp : p ∈ m) : fsFind m p.1 = some p.2 := by
  induction m with
  | nil => simp at hp
  | cons q tl ih =>
      simp only [fsKeys, List.map_cons, List.nodup_cons] at hnd
      rcases List.mem_cons.mp hp with hp | hp
      · subst hp
        simp [fsFind, List.find?_cons]
      · have hne : ¬ (q.1 == p.1) = true := by
          intro hc
          exact hnd.1 ((beq_iff_eq.mp hc) ▸ List.mem_map_of_mem Prod.fst hp)
        simp only [fsFind, List.find?_cons, hne, if_false]
        exact ih hnd.2 hp

/-- One iteration of the vector loop of reciprocalRankFusion: create the
entry on first sight (vector score, zero keyword score), then add the
reciprocal-rank contribution and record the 1-based vector rank. -/
def rrfVectorStep (k : Int) (m : FusionMap) (rank : ℕ) (result : SearchResult) :
    FusionMap :=
  let chunkID := chunkIdOf result
  let m1 :=
    if fsFind m chunkID = none then
      m ++ [(chunkID,
        { chunk := result.chunk, vectorScore := result.score, keywordScore := 0,
          rrfScore := 0, vectorRank := 0, keywordRank := 0 })]
    else m
  fsUpdate m1 chunkID (fun fs =>
    { fs with rrfScore := fs.rrfScore + 1 / ((k : ℚ) + (rank : ℚ) + 1)
              vectorRank := (rank : Int) + 1 })

/-- One iteration of the keyword loop: create the entry (zero vector
score) or overwrite the keyword score, then add the contribution and the
1-based keyword rank. -/
def rrfKeywordStep (k : Int) (m : FusionMap) (rank : ℕ) (result : SearchResult) :
    FusionMap :=
  let chunkID := chunkIdOf result
  let m1 :=
    if fsFind m chunkID = none then
      m ++ [(chunkID,
        { chunk := result.chunk, vectorScore := 0, keywordScore := result.score,
          rrfScore := 0, vectorRank := 0, keywordRank := 0 })]
    else fsUpdate m chunkID (fun fs => { fs with keywordScore := result.score })
  fsUpdate m1 chunkID (fun fs =>
    { fs with rrfScore := fs.rrfScore + 1 / ((k : ℚ) + (rank : ℚ) + 1)
              keywordRank := (rank : Int) + 1 })

/-- The vector loop (`for rank, result := range vectorResults`). -/
def rrfVectorPass (k : Int) (m : FusionMap) : List SearchResult → ℕ → FusionMap
  | [], _ => m
  | r :: rest, rank => rrfVectorPass k (rrfVectorStep k m rank r) rest (rank + 1)

/-- The keyword loop. -/
def rrfKeywordPass (k : Int) (m : FusionMap) : List SearchResult → ℕ → FusionMap
  | [], _ => m
  | r :: rest, rank => rrfKeywordPass k (rrfKeywordStep k m rank r) rest (rank + 1)

/-- retrieval.reciprocalRankFusion. -/
def reciprocalRankFusion (vectorResults keywordResults : List SearchResult)
    (k : Int) : List SearchResult :=
  let m := rrfKeywordPass k (rrfVectorPass k [] vectorResults 0) keywordResults 0
  let results := m.map (fun p =>
    { chunk := p.2.chunk, score := p.2.rrfScore, source := "hybrid",
      vectorScore := p.2.vectorScore, keywordScore := p.2.keywordScore,
      relevanceScore := 0 })
  List.insertionSort (fun a b => b.score ≤ a.score) results

/-- The 0-based rank of the first result carrying chunk id `d`. -/
def rankIn : List SearchResult → String → Option ℕ
  | [], _ => none
  | r :: rest, d => if chunkIdOf r = d then some 0 else (rankIn rest d).map (· + 1)

/-- The first result carrying chunk id `d`. -/
def firstWith : List SearchResult → String → Option SearchResult
  | [], _ => none
  | r :: rest, d => if chunkIdOf r = d then some r else firstWith rest d

/-- The score carried by `d` in a ranked list (0 when absent). -/
def scoreAtRank : List SearchResult → String → ℚ
  | [], _ => 0
  | r :: rest, d => if chunkIdOf r = d then r.score else scoreAtRank rest d

/-- One reciprocal-rank contribution. -/
def rrfContrib (k : Int) : Option ℕ → ℚ
  | none => 0
  | some i => 1 / ((k : ℚ) + (i : ℚ) + 1)

/-- The RRF score named by the spec: the sum over the lists containing a
document of the reciprocal of (k + rank + 1). -/
def rrfSpecScore (v kw : List SearchResult) (k : Int) (d : String) : ℚ :=
  rrfContrib k (rankIn v d) + rrfContrib k (rankIn kw d)

/-- Net effect of the vector pass on the entry of a document at 0-based
list rank `i`, starting from absolute rank `rank`. -/
def vbump (prior : Option FusionScoreData) (r : SearchResult) (k : Int)
    (rankAbs : ℕ) : FusionScoreData :=
  let base := prior.getD
    { chunk := r.chunk, vectorScore := r.score, keywordScore := 0,
      rrfScore := 0, vectorRank := 0, keywordRank := 0 }
  { base with rrfScore := base.rrfScore + 1 / ((k : ℚ) + (rankAbs : ℚ) + 1)
              vectorRank := (rankAbs : Int) + 1 }

/-- Net effect of the keyword pass on the entry of a document at 0-based
list rank `i`. -/
def kbump (prior : Option FusionScoreData) (r : SearchResult) (k : Int)
    (rankAbs : ℕ) : FusionScoreData :=
  match prior with
  | none =>
      { chunk := r.chunk, vectorScore := 0, keywordScore := r.score,
        rrfScore := 0 + 1 / ((k : ℚ) + (rankAbs : ℚ) + 1), vectorRank := 0,
        keywordRank := (rankAbs : Int) + 1 }
  | some fs =>
      { fs with keywordScore := r.score
                rrfScore := fs.rrfScore + 1 / ((k : ℚ) + (rankAbs : ℚ) + 1)
                keywordRank := (rankAbs : Int) + 1 }

theorem rrfVectorStep_find_self (k : Int) (m : FusionMap) (rank : ℕ)
    (r : SearchResult) :
    fsFind (rrfVectorStep k m rank r) (chunkIdOf r) =
      some (vbump (fsFind m (chunkIdOf r)) r k rank) := by
  unfold rrfVectorStep
  dsimp only
  by_cases hm : fsFind m (chunkIdOf r) = none
  · rw [if_pos hm, fsFind_update_self, fsFind_append_self m _ _ hm, hm]
    rfl
  · rw [if_neg hm, fsFind_update_self]
    rcases Option.ne_none_iff_exists'.mp hm with ⟨fs, hfs⟩
    rw [hfs]
    rfl

theorem rrfVectorStep_find_other (k : Int) (m : FusionMap) (rank : ℕ)
    (r : SearchResult) (d : String) (h : d ≠ chunkIdOf r) :
    fsFind (rrfVectorStep k m rank r) d = fsFind m d := by
  unfold rrfVectorStep
  dsimp only
  by_cases hm : fsFind m (chunkIdOf r) = none
  · rw [if_pos hm, fsFind_update_other _ _ _ _ h, fsFind_append_other _ _ _ _ h]
  · rw [if_neg hm, fsFind_update_other _ _ _ _ h]

theorem rrfKeywordStep_find_self (k : Int) (m : FusionMap) (rank : ℕ)
    (r : SearchResult) :
    fsFind (rrfKeywordStep k m rank r) (chunkIdOf r) =
      some (kbump (fsFind m (chunkIdOf r)) r k rank) := by
  unfold rrfKeywordStep
  dsimp only
  by_cases hm : fsFind m (chunkIdOf r) = none
  · rw [if_pos hm, fsFind_update_self, fsFind_append_self m _ _ hm, hm]
    rfl
  · rw [if_neg hm, fsFind_update_self, fsFind_update_self]
    rcases Option.ne_none_iff_exists'.mp hm with ⟨fs, hfs⟩
    rw [hfs]
    rfl

theorem rrfKeywordStep_find_other (k : Int) (m : FusionMap) (rank : ℕ)
    (r : SearchResult) (d : String) (h : d ≠ chunkIdOf r) :
    fsFind (rrfKeywordStep k m rank r) d = fsFind m d := by
  unfold rrfKeywordStep
  dsimp only
  by_cases hm : fsFind m (chunkIdOf r) = none
  · rw [if_pos hm, fsFind_update_other _ _ _ _ h, fsFind_append_other _ _ _ _ h]
  · rw [if_neg hm, fsFind_update_other _ _ _ _ h, fsFind_update_other _ _ _ _ h]

theorem rrfVectorStep_keys (k : Int) (m : FusionMap) (rank : ℕ) (r : SearchResult) :
    fsKeys (rrfVectorStep k m rank r) =
      fsKeys m ++ (if chunkIdOf r ∈ fsKeys m then [] else [chunkIdOf r]) := by
  unfold rrfVectorStep
  dsimp only
  by_cases hm : fsFind m (chunkIdOf r) = none
  · rw [if_pos hm, fsKeys_update]
    have : chunkIdOf r ∉ fsKeys m := (fsFind_eq_none_iff m _).mp hm
    rw [if_neg this]
    simp [fsKeys]
  · rw [if_neg hm, fsKeys_update]
    rw [fsFind_eq_none_iff] at hm
    push_neg at hm
    rw [if_pos hm]
    simp

theorem rrfKeywordStep_keys (k : Int) (m : FusionMap) (rank : ℕ) (r : SearchResult) :
    fsKeys (rrfKeywordStep k m rank r) =
      fsKeys m ++ (if chunkIdOf r ∈ fsKeys m then [] else [chunkIdOf r]) := by
  unfold rrfKeywordStep
  dsimp only
  by_cases hm : fsFind m (chunkIdOf r) = none
  · rw [if_pos hm, fsKeys_update]
    have : chunkIdOf r ∉ fsKeys m := (fsFind_eq_none_iff m _).mp hm
    rw [if_neg this]
    simp [fsKeys]
  · rw [if_neg hm, fsKeys_update, fsKeys_update]
    rw [fsFind_eq_none_iff] at hm
    push_neg at hm
    rw [if_pos hm]
    simp

theorem rankIn_eq_none_iff (d : String) :
    ∀ l : List SearchResult, rankIn l d = none ↔ d ∉ l.map chunkIdOf := by
  intro l
  induction l with
  | nil => simp [rankIn]
  | cons r rest ih =>
      unfold rankIn
      by_cases h : chunkIdOf r = d
      · simp [h]
      · simp only [h, if_false, List.map_cons, List.mem_cons, Option.map_eq_none']
        rw [ih]
        have : ¬ d = chunkIdOf r := fun hc => h hc.symm
        simp [this]

theorem rankIn_cons_ne (d : String) (r : SearchResult) (rest : List SearchResult)
    (h : chunkIdOf r ≠ d) (i : ℕ) :
    rankIn (r :: rest) d = some i ↔ ∃ i', rankIn rest d = some i' ∧ i = i' + 1 := by
  rw [show rankIn (r :: rest) d =
        (if chunkIdOf r = d then some 0 else (rankIn rest d).map (· + 1)) from by
        simp only [rankIn], if_neg h]
  constructor
  · intro hmap
    rcases Option.map_eq_some'.mp hmap with ⟨i', hi', hplus⟩
    exact ⟨i', hi', hplus.symm⟩
  · rintro ⟨i', hi', rfl⟩
    simp [hi']

theorem firstWith_chunkId (d : String) :
    ∀ (l : List SearchResult) (r : SearchResult),
      firstWith l d = some r → chunkIdOf r = d ∧ r ∈ l := by
  intro l
  induction l with
  | nil => intro r h; simp [firstWith] at h
  | cons r0 rest ih =>
      intro r h
      unfold firstWith at h
      by_cases h0 : chunkIdOf r0 = d
      · rw [if_pos h0] at h
        cases h
        exact ⟨h0, by simp⟩
      · rw [if_neg h0] at h
        obtain ⟨hc, hm⟩ := ih r h
        exact ⟨hc, by simp [hm]⟩

theorem rankIn_some_firstWith (d : String) :
    ∀ (l : List SearchResult) (i : ℕ),
      rankIn l d = some i → ∃ r, firstWith l d = some r := by
  intro l
  induction l with
  | nil => intro i h; simp [rankIn] at h
  | cons r0 rest ih =>
      intro i h
      unfold rankIn at h
      unfold firstWith
      by_cases h0 : chunkIdOf r0 = d
      · exact ⟨r0, by rw [if_pos h0]⟩
      · rw [if_neg h0] at h
        rcases Option.map_eq_some'.mp h with ⟨i', hi', _⟩
        obtain ⟨r, hr⟩ := ih i' hi'
        exact ⟨r, by rw [if_neg h0]; exact hr⟩

theorem scoreAtRank_of_none (d : String) :
    ∀ l : List SearchResult, rankIn l d = none → scoreAtRank l d = 0 := by
  intro l
  induction l with
  | nil => intro _; rfl
  | cons r rest ih =>
      intro h
      unfold rankIn at h
      unfold scoreAtRank
      by_cases h0 : chunkIdOf r = d
      · simp [h0] at h
      · rw [if_neg h0] at h ⊢
        exact ih (Option.map_eq_none'.mp h)

theorem scoreAtRank_of_firstWith (d : String) :
    ∀ (l : List SearchResult) (r : SearchResult),
      firstWith l d = some r → scoreAtRank l d = r.score := by
  intro l
  induction l with
  | nil => intro r h; simp [firstWith] at h
  | cons r0 rest ih =>
      intro r h
      unfold firstWith at h
      unfold scoreAtRank
      by_cases h0 : chunkIdOf r0 = d
      · rw [if_pos h0] at h
        cases h
        rw [if_pos h0]
      · rw [if_neg h0] at h ⊢
        exact ih r h

theorem rrfVectorPass_find_notin (k : Int) :
    ∀ (v : List SearchResult) (m : FusionMap) (rank : ℕ) (d : String),
      rankIn v d = none → fsFind (rrfVectorPass k m v rank) d = fsFind m d := by
  intro v
  induction v with
  | nil => intro m rank d _; rfl
  | cons r rest ih =>
      intro m rank d h
      unfold rankIn at h
      by_cases h0 : chunkIdOf r = d
      · simp [h0] at h
      · rw [if_neg h0] at h
        rw [show rrfVectorPass k m (r :: rest) rank =
              rrfVectorPass k (rrfVectorStep k m rank r) rest (rank + 1) from rfl,
          ih _ _ _ (Option.map_eq_none'.mp h),
          rrfVectorStep_find_other k m rank r d (fun hc => h0 hc.symm)]

theorem rrfVectorPass_find_some (k : Int) :
    ∀ (v : List SearchResult) (m : FusionMap) (rank : ℕ) (d : String) (i : ℕ)
      (r : SearchResult),
      (v.map chunkIdOf).Nodup → rankIn v d = some i → firstWith v d = some r →
      fsFind (rrfVectorPass k m v rank) d = some (vbump (fsFind m d) r k (rank + i)) := by
  intro v
  induction v with
  | nil => intro m rank d i r _ h; simp [rankIn] at h
  | cons r0 rest ih =>
      intro m rank d i r hnd hrank hfirst
      simp only [List.map_cons, List.nodup_cons] at hnd
      by_cases h0 : chunkIdOf r0 = d
      · have hi : i = 0 := by
          unfold rankIn at hrank
          rw [if_pos h0] at hrank
          cases hrank
          rfl
        have hr : r = r0 := by
          unfold firstWith at hfirst
          rw [if_pos h0] at hfirst
          cases hfirst
          rfl
        subst hi
        subst hr
        have hnotin : rankIn rest d = none :=
          (rankIn_eq_none_iff d rest).mpr (h0 ▸ hnd.1)
        rw [show rrfVectorPass k m (r :: rest) rank =
              rrfVectorPass k (rrfVectorStep k m rank r) rest (rank + 1) from rfl,
          rrfVectorPass_find_notin k rest _ _ _ hnotin, ← h0,
          rrfVectorStep_find_self k m rank r, h0, Nat.add_zero]
      · rcases (rankIn_cons_ne d r0 rest h0 i).mp hrank with ⟨i', hi', rfl⟩
        have hfirst' : firstWith rest d = some r := by
          unfold firstWith at hfirst
          rwa [if_neg h0] at hfirst
        rw [show rrfVectorPass k m (r0 :: rest) rank =
              rrfVectorPass k (rrfVectorStep k m rank r0) rest (rank + 1) from rfl,
          ih _ _ _ _ _ hnd.2 hi' hfirst',
          rrfVectorStep_find_other k m rank r0 d (fun hc => h0 hc.symm)]
        have : rank + 1 + i' = rank + (i' + 1) := by omega
        rw [this]

theorem rrfKeywordPass_find_notin (k : Int) :
    ∀ (kw : List SearchResult) (m : FusionMap) (rank : ℕ) (d : String),
      rankIn kw d = none → fsFind (rrfKeywordPass k m kw rank) d = fsFind m d := by
  intro kw
  induction kw with
  | nil => intro m rank d _; rfl
  | cons r rest ih =>
      intro m rank d h
      unfold rankIn at h
      by_cases h0 : chunkIdOf r = d
      · simp [h0] at h
      · rw [if_neg h0] at h
        rw [show rrfKeywordPass k m (r :: rest) rank =
              rrfKeywordPass k (rrfKeywordStep k m rank r) rest (rank + 1) from rfl,
          ih _ _ _ (Option.map_eq_none'.mp h),
          rrfKeywordStep_find_other k m rank r d (fun hc => h0 hc.symm)]

theorem rrfKeywordPass_find_some (k : Int) :
    ∀ (kw : List SearchResult) (m : FusionMap) (rank : ℕ) (d : String) (i : ℕ)
      (r : SearchResult),
      (kw.map chunkIdOf).Nodup → rankIn kw d = some i → firstWith kw d = some r →
      fsFind (rrfKeywordPass k m kw rank) d = some (kbump (fsFind m d) r k (rank + i)) := by
  intro kw
  induction kw with
  | nil => intro m rank d i r _ h; simp [rankIn] at h
  | cons r0 rest ih =>
      intro m rank d i r hnd hrank hfirst
      simp only [List.map_cons, List.nodup_cons] at hnd
      by_cases h0 : chunkIdOf r0 = d
      · have hi : i = 0 := by
          unfold rankIn at hrank
          rw [if_pos h0] at hrank
          cases hrank
          rfl
        have hr : r = r0 := by
          unfold firstWith at hfirst
          rw [if_pos h0] at hfirst
          cases hfirst
          rfl
        subst hi
        subst hr
        have hnotin : rankIn rest d = none :=
          (rankIn_eq_none_iff d rest).mpr (h0 ▸ hnd.1)
        rw [show rrfKeywordPass k m (r :: rest) rank =
              rrfKeywordPass k (rrfKeywordStep k m rank r) rest (rank + 1) from rfl,
          rrfKeywordPass_find_notin k rest _ _ _ hnotin, ← h0,
          rrfKeywordStep_find_self k m rank r, h0, Nat.add_zero]
      · rcases (rankIn_cons_ne d r0 rest h0 i).mp hrank with ⟨i', hi', rfl⟩
        have hfirst' : firstWith rest d = some r := by
          unfold firstWith at hfirst
          rwa [if_neg h0] at hfirst
        rw [show rrfKeywordPass k m (r0 :: rest) rank =
              rrfKeywordPass k (rrfKeywordStep k m rank r0) rest (rank + 1) from rfl,
          ih _ _ _ _ _ hnd.2 hi' hfirst',
          rrfKeywordStep_find_other k m rank r0 d (fun hc => h0 hc.symm)]
        have : rank + 1 + i' = rank + (i' + 1) := by omega
        rw [this]

theorem rrfVectorPass_keys_mem (k : Int) :
    ∀ (v : List SearchResult) (m : FusionMap) (rank : ℕ) (d : String),
      d ∈ fsKeys (rrfVectorPass k m v rank) ↔ d ∈ fsKeys m ∨ d ∈ v.map chunkIdOf := by
  intro v
  induction v with
  | nil => intro m rank d; simp [rrfVectorPass]
  | cons r rest ih =>
      intro m rank d
      rw [show rrfVectorPass k m (r :: rest) rank =
            rrfVectorPass k (rrfVectorStep k m rank r) rest (rank + 1) from rfl, ih]
      rw [rrfVectorStep_keys]
      by_cases hmem : chunkIdOf r ∈ fsKeys m
      · rw [if_pos hmem]
        simp only [List.append_nil, List.map_cons, List.mem_cons]
        constructor
        · rintro (h | h)
          · exact Or.inl h
          · exact Or.inr (Or.inr h)
        · rintro (h | h | h)
          · exact Or.inl h
          · exact Or.inl (h ▸ hmem)
          · exact Or.inr h
      · rw [if_neg hmem]
        simp only [List.mem_append, List.mem_singleton, List.map_cons, List.mem_cons]
        tauto

theorem rrfKeywordPass_keys_mem (k : Int) :
    ∀ (kw : List SearchResult) (m : FusionMap) (rank : ℕ) (d : String),
      d ∈ fsKeys (rrfKeywordPass k m kw rank) ↔ d ∈ fsKeys m ∨ d ∈ kw.map chunkIdOf := by
  intro kw
  induction kw with
  | nil => intro m rank d; simp [rrfKeywordPass]
  | cons r rest ih =>
      intro m rank d
      rw [show rrfKeywordPass k m (r :: rest) rank =
            rrfKeywordPass k (rrfKeywordStep k m rank r) rest (rank + 1) from rfl, ih]
      rw [rrfKeywordStep_keys]
      by_cases hmem : chunkIdOf r ∈ fsKeys m
      · rw [if_pos hmem]
        simp only [List.append_nil, List.map_cons, List.mem_cons]
        constructor
        · rintro (h | h)
          · exact Or.inl h
          · exact Or.inr (Or.inr h)
        · rintro (h | h | h)
          · exact Or.inl h
          · exact Or.inl (h ▸ hmem)
          · exact Or.inr h
      · rw [if_neg hmem]
        simp only [List.mem_append, List.mem_singleton, List.map_cons, List.mem_cons]
        tauto

theorem rrfVectorPass_keys_nodup (k : Int) :
    ∀ (v : List SearchResult) (m : FusionMap) (rank : ℕ),
      (fsKeys m).Nodup → (fsKeys (rrfVectorPass k m v rank)).Nodup := by
  intro v
  induction v with
  | nil => intro m rank h; exact h
  | cons r rest ih =>
      intro m rank h
      refine ih _ _ ?_
      rw [rrfVectorStep_keys]
      by_cases hmem : chunkIdOf r ∈ fsKeys m
      · rw [if_pos hmem, List.append_nil]
        exact h
      · rw [if_neg hmem]
        refine List.Nodup.append h (List.nodup_singleton _) ?_
        intro x hx hx'
        rw [List.mem_singleton] at hx'
        exact hmem (hx' ▸ hx)

theorem rrfKeywordPass_keys_nodup (k : Int) :
    ∀ (kw : List SearchResult) (m : FusionMap) (rank : ℕ),
      (fsKeys m).Nodup → (fsKeys (rrfKeywordPass k m kw rank)).Nodup := by
  intro kw
  induction kw with
  | nil => intro m rank h; exact h
  | cons r rest ih =>
      intro m rank h
      refine ih _ _ ?_
      rw [rrfKeywordStep_keys]
      by_cases hmem : chunkIdOf r ∈ fsKeys m
      · rw [if_pos hmem, List.append_nil]
        exact h
      · rw [if_neg hmem]
        refine List.Nodup.append h (List.nodup_singleton _) ?_
        intro x hx hx'
        rw [List.mem_singleton] at hx'
        exact hmem (hx' ▸ hx)

/-- The chunk stored at a map entry carries exactly the entry's key. -/
def entryKeyOk (p : String × FusionScoreData) : Prop :=
  (p.2.chunk.map CodeChunk.id).getD "" = p.1

theorem fsUpdate_entry (m : FusionMap) (k : String)
    (f : FusionScoreData → FusionScoreData) (p : String × FusionScoreData)
    (hp : p ∈ fsUpdate m k f) :
    ∃ q ∈ m, p = (if q.1 == k then (q.1, f q.2) else q) := by
  rcases List.mem_map.mp hp with ⟨q, hq, hpq⟩
  by_cases h : q.1 == k
  · exact ⟨q, hq, by rw [if_pos h, ← hpq, if_pos h]⟩
  · exact ⟨q, hq, by rw [if_neg h, ← hpq, if_neg h]⟩

theorem rrfVectorStep_entryKeyOk (k : Int) (m : FusionMap) (rank : ℕ)
    (r : SearchResult) (h : ∀ p ∈ m, entryKeyOk p) :
    ∀ p ∈ rrfVectorStep k m rank r, entryKeyOk p := by
  intro p hp
  unfold rrfVectorStep at hp
  dsimp only at hp
  obtain ⟨q, hq, hpq⟩ := fsUpdate_entry _ _ _ p hp
  have hqok : entryKeyOk q := by
    by_cases hm : fsFind m (chunkIdOf r) = none
    · rw [if_pos hm] at hq
      rcases List.mem_append.mp hq with hq | hq
      · exact h q hq
      · rw [List.mem_singleton] at hq
        subst hq
        rfl
    · rw [if_neg hm] at hq
      exact h q hq
  by_cases hk : q.1 == chunkIdOf r
  · rw [hpq, if_pos hk]
    exact hqok
  · rw [hpq, if_neg hk]
    exact hqok

theorem rrfKeywordStep_entryKeyOk (k : Int) (m : FusionMap) (rank : ℕ)
    (r : SearchResult) (h : ∀ p ∈ m, entryKeyOk p) :
    ∀ p ∈ rrfKeywordStep k m rank r, entryKeyOk p := by
  intro p hp
  unfold rrfKeywordStep at hp
  dsimp only at hp
  obtain ⟨q, hq, hpq⟩ := fsUpdate_entry _ _ _ p hp
  have hqok : entryKeyOk q := by
    by_cases hm : fsFind m (chunkIdOf r) = none
    · rw [if_pos hm] at hq
      rcases List.mem_append.mp hq with hq | hq
      · exact h q hq
      · rw [List.mem_singleton] at hq
        subst hq
        rfl
    · rw [if_neg hm] at hq
      obtain ⟨q', hq', hqq'⟩ := fsUpdate_entry _ _ _ q hq
      have hq'ok := h q' hq'
      by_cases hk' : q'.1 == chunkIdOf r
      · rw [hqq', if_pos hk']
        exact hq'ok
      · rw [hqq', if_neg hk']
        exact hq'ok
  by_cases hk : q.1 == chunkIdOf r
  · rw [hpq, if_pos hk]
    exact hqok
  · rw [hpq, if_neg hk]
    exact hqok

theorem rrfVectorPass_entryKeyOk (k : Int) :
    ∀ (v : List SearchResult) (m : FusionMap) (rank : ℕ),
      (∀ p ∈ m, entryKeyOk p) → ∀ p ∈ rrfVectorPass k m v rank, entryKeyOk p := by
  intro v
  induction v with
  | nil => intro m rank h; exact h
  | cons r rest ih =>
      intro m rank h
      exact ih _ _ (rrfVectorStep_entryKeyOk k m rank r h)

theorem rrfKeywordPass_entryKeyOk (k : Int) :
    ∀ (kw : List SearchResult) (m : FusionMap) (rank : ℕ),
      (∀ p ∈ m, entryKeyOk p) → ∀ p ∈ rrfKeywordPass k m kw rank, entryKeyOk p := by
  intro kw
  induction kw with
  | nil => intro m rank h; exact h
  | cons r rest ih =>
      intro m rank h
      exact ih _ _ (rrfKeywordStep_entryKeyOk k m rank r h)

/-- The search result built from one map entry at the end of
reciprocalRankFusion. -/
def fusionSR (p : String × FusionScoreData) : SearchResult :=
  { chunk := p.2.chunk, score := p.2.rrfScore, source := "hybrid",
    vectorScore := p.2.vectorScore, keywordScore := p.2.keywordScore,
    relevanceScore := 0 }

theorem reciprocalRankFusion_eq (v kw : List SearchResult) (k : Int) :
    reciprocalRankFusion v kw k =
      List.insertionSort (fun a b => b.score ≤ a.score)
        ((rrfKeywordPass k (rrfVectorPass k [] v 0) kw 0).map fusionSR) := rfl

instance : IsTotal SearchResult (fun a b => b.score ≤ a.score) :=
  ⟨fun a b => le_total b.score a.score⟩

instance : IsTrans SearchResult (fun a b => b.score ≤ a.score) :=
  ⟨fun _ _ _ h1 h2 => le_trans h2 h1⟩

theorem rrf_entry_char (v kw : List SearchResult)
    (hv : (v.map chunkIdOf).Nodup) (hk : (kw.map chunkIdOf).Nodup)
    (p : String × FusionScoreData)
    (hp : p ∈ rrfKeywordPass 60 (rrfVectorPass 60 [] v 0) kw 0) :
    p.2.rrfScore = rrfSpecScore v kw 60 p.1 ∧
    p.2.vectorScore = scoreAtRank v p.1 ∧
    p.2.keywordScore = scoreAtRank kw p.1 := by
  have hnodupkeys : (fsKeys (rrfKeywordPass 60 (rrfVectorPass 60 [] v 0) kw 0)).Nodup :=
    rrfKeywordPass_keys_nodup 60 kw _ 0
      (rrfVectorPass_keys_nodup 60 v [] 0 (by simp [fsKeys]))
  have hfind := fsFind_mem_of_nodup _ p hnodupkeys hp
  have hnilfind : fsFind [] p.1 = none := rfl
  by_cases hkw : rankIn kw p.1 = none
  · rw [rrfKeywordPass_find_notin 60 kw _ 0 _ hkw] at hfind
    by_cases hvr : rankIn v p.1 = none
    · rw [rrfVectorPass_find_notin 60 v [] 0 _ hvr, hnilfind] at hfind
      cases hfind
    · obtain ⟨i, hi⟩ := Option.ne_none_iff_exists'.mp hvr
      obtain ⟨rv, hrv⟩ := rankIn_some_firstWith _ v i hi
      rw [rrfVectorPass_find_some 60 v [] 0 p.1 i rv hv hi hrv, hnilfind] at hfind
      have hp2 : p.2 = vbump none rv 60 (0 + i) := (Option.some_inj.mp hfind).symm
      rw [hp2]
      refine ⟨?_, ?_, ?_⟩
      · rw [rrfSpecScore, hi, hkw]
        simp [vbump, rrfContrib]
      · rw [scoreAtRank_of_firstWith _ v rv hrv]
        simp [vbump]
      · rw [scoreAtRank_of_none _ kw hkw]
        simp [vbump]
  · obtain ⟨j, hj⟩ := Option.ne_none_iff_exists'.mp hkw
    obtain ⟨rk, hrk⟩ := rankIn_some_firstWith _ kw j hj
    rw [rrfKeywordPass_find_some 60 kw _ 0 p.1 j rk hk hj hrk] at hfind
    by_cases hvr : rankIn v p.1 = none
    · rw [rrfVectorPass_find_notin 60 v [] 0 _ hvr, hnilfind] at hfind
      have hp2 : p.2 = kbump none rk 60 (0 + j) := (Option.some_inj.mp hfind).symm
      rw [hp2]
      refine ⟨?_, ?_, ?_⟩
      · rw [rrfSpecScore, hj, hvr]
        simp [kbump, rrfContrib]
      · rw [scoreAtRank_of_none _ v hvr]
        simp [kbump]
      · rw [scoreAtRank_of_firstWith _ kw rk hrk]
        simp [kbump]
    · obtain ⟨i, hi⟩ := Option.ne_none_iff_exists'.mp hvr
      obtain ⟨rv, hrv⟩ := rankIn_some_firstWith _ v i hi
      rw [rrfVectorPass_find_some 60 v [] 0 p.1 i rv hv hi hrv, hnilfind] at hfind
      have hp2 : p.2 = kbump (some (vbump none rv 60 (0 + i))) rk 60 (0 + j) :=
        (Option.some_inj.mp hfind).symm
      rw [hp2]
      refine ⟨?_, ?_, ?_⟩
      · rw [rrfSpecScore, hi, hj]
        simp [kbump, vbump, rrfContrib]
      · rw [scoreAtRank_of_firstWith _ v rv hrv]
        simp [kbump, vbump]
      · rw [scoreAtRank_of_firstWith _ kw rk hrk]
        simp [kbump, vbump]

/-- C4 (amended): RRF with k = 60 tags every output "hybrid",
deduplicates by chunk id, sorts descending by the fused score, scores
every document by the sum over the lists containing it of
1/(60 + rank + 1), and preserves the vector and keyword scores of the
originals; a document appears in the output iff it appears in one of the
input lists.  (On the spec's example the correct values are doc 2 =
1/61 + 1/62, doc 1 = 1/61, doc 3 = 1/62 — see the witness.) -/
theorem rrf_fusion_matches_spec (v kw : List SearchResult)
    (hv : (v.map chunkIdOf).Nodup) (hk : (kw.map chunkIdOf).Nodup) :
    (∀ r ∈ reciprocalRankFusion v kw 60, r.source = "hybrid") ∧
    ((reciprocalRankFusion v kw 60).map chunkIdOf).Nodup ∧
    List.Sorted (fun a b => b.score ≤ a.score) (reciprocalRankFusion v kw 60) ∧
    (∀ r ∈ reciprocalRankFusion v kw 60,
        r.score = rrfSpecScore v kw 60 (chunkIdOf r) ∧
        r.vectorScore = scoreAtRank v (chunkIdOf r) ∧
        r.keywordScore = scoreAtRank kw (chunkIdOf r)) ∧
    (∀ d : String,
        (∃ r ∈ reciprocalRankFusion v kw 60, chunkIdOf r = d) ↔
          (d ∈ v.map chunkIdOf ∨ d ∈ kw.map chunkIdOf)) := by
  have hperm : (reciprocalRankFusion v kw 60).Perm
      ((rrfKeywordPass 60 (rrfVectorPass 60 [] v 0) kw 0).map fusionSR) := by
    rw [reciprocalRankFusion_eq]
    exact List.perm_insertionSort _ _
  have hnodupkeys : (fsKeys (rrfKeywordPass 60 (rrfVectorPass 60 [] v 0) kw 0)).Nodup :=
    rrfKeywordPass_keys_nodup 60 kw _ 0
      (rrfVectorPass_keys_nodup 60 v [] 0 (by simp [fsKeys]))
  have hentry : ∀ p ∈ rrfKeywordPass 60 (rrfVectorPass 60 [] v 0) kw 0, entryKeyOk p :=
    rrfKeywordPass_entryKeyOk 60 kw _ 0
      (rrfVectorPass_entryKeyOk 60 v [] 0 (by intro p hp; simp at hp))
  have hsrid : ∀ p ∈ rrfKeywordPass 60 (rrfVectorPass 60 [] v 0) kw 0,
      chunkIdOf (fusionSR p) = p.1 := by
    intro p hp
    have := hentry p hp
    unfold entryKeyOk at this
    simpa [chunkIdOf, fusionSR] using this
  refine ⟨?_, ?_, ?_, ?_, ?_⟩
  · intro r hr
    rcases List.mem_map.mp (hperm.mem_iff.mp hr) with ⟨p, _, rfl⟩
    rfl
  · have hmapeq : ((rrfKeywordPass 60 (rrfVectorPass 60 [] v 0) kw 0).map
        fusionSR).map chunkIdOf = fsKeys (rrfKeywordPass 60 (rrfVectorPass 60 [] v 0) kw 0) := by
      rw [List.map_map]
      exact List.map_congr_left hsrid
    refine ((hperm.map chunkIdOf).nodup_iff).mpr ?_
    rw [hmapeq]
    exact hnodupkeys
  · rw [reciprocalRankFusion_eq]
    exact List.sorted_insertionSort _ _
  · intro r hr
    rcases List.mem_map.mp (hperm.mem_iff.mp hr) with ⟨p, hp, rfl⟩
    have hid := hsrid p hp
    have hchar := rrf_entry_char v kw hv hk p hp
    rw [hid]
    exact ⟨hchar.1, hchar.2.1, hchar.2.2⟩
  · intro d
    constructor
    · rintro ⟨r, hr, rfl⟩
      rcases List.mem_map.mp (hperm.mem_iff.mp hr) with ⟨p, hp, rfl⟩
      rw [hsrid p hp]
      have hkeymem : p.1 ∈ fsKeys (rrfKeywordPass 60 (rrfVectorPass 60 [] v 0) kw 0) :=
        List.mem_map_of_mem Prod.fst hp
      rw [rrfKeywordPass_keys_mem, rrfVectorPass_keys_mem] at hkeymem
      rcases hkeymem with (h | h) | h
      · simp [fsKeys] at h
      · exact Or.inl h
      · exact Or.inr h
    · intro hd
      have hkeymem : d ∈ fsKeys (rrfKeywordPass 60 (rrfVectorPass 60 [] v 0) kw 0) := by
        rw [rrfKeywordPass_keys_mem, rrfVectorPass_keys_mem]
        tauto
      rcases List.mem_map.mp hkeymem with ⟨p, hp, rfl⟩
      exact ⟨fusionSR p, hperm.mem_iff.mpr (List.mem_map_of_mem fusionSR hp),
        hsrid p hp⟩

/-- A bare chunk carrying only an id, for the RRF example. -/
def exChunk (i : String) : CodeChunk :=
  { id := i, filePath := "", language := "", content := "", chunkType := ""
    startLine := 0, endLine := 0, metadata := [], dependencies := [], embedding := [] }

/-- A vector/keyword search result carrying a bare chunk. -/
def exSR (i : String) (sc : ℚ) (src : String) : SearchResult :=
  { chunk := some (exChunk i), score := sc, source := src, vectorScore := 0
    keywordScore := 0, relevanceScore := 0 }

/-- The spec's example vector list [1, 2]. -/
def exVector : List SearchResult := [exSR "1" (9/10) "vector", exSR "2" (8/10) "vector"]

/-- The spec's example keyword list [2, 3]. -/
def exKeyword : List SearchResult := [exSR "2" (7/10) "keyword", exSR "3" (6/10) "keyword"]

theorem rrf_example_entry (d : String)
    (hd : d ∈ exVector.map chunkIdOf ∨ d ∈ exKeyword.map chunkIdOf) :
    ∃ r ∈ reciprocalRankFusion exVector exKeyword 60,
      chunkIdOf r = d ∧ r.score = rrfSpecScore exVector exKeyword 60 d := by
  have hv : (exVector.map chunkIdOf).Nodup := by decide
  have hk : (exKeyword.map chunkIdOf).Nodup := by decide
  have hperm : (reciprocalRankFusion exVector exKeyword 60).Perm
      ((rrfKeywordPass 60 (rrfVectorPass 60 [] exVector 0) exKeyword 0).map fusionSR) := by
    rw [reciprocalRankFusion_eq]
    exact List.perm_insertionSort _ _
  have hentry : ∀ p ∈ rrfKeywordPass 60 (rrfVectorPass 60 [] exVector 0) exKeyword 0,
      entryKeyOk p :=
    rrfKeywordPass_entryKeyOk 60 exKeyword _ 0
      (rrfVectorPass_entryKeyOk 60 exVector [] 0 (by intro p hp; simp at hp))
  have hkeymem : d ∈ fsKeys (rrfKeywordPass 60 (rrfVectorPass 60 [] exVector 0)
      exKeyword 0) := by
    rw [rrfKeywordPass_keys_mem, rrfVectorPass_keys_mem]
    tauto
  rcases List.mem_map.mp hkeymem with ⟨p, hp, rfl⟩
  have hid : chunkIdOf (fusionSR p) = p.1 := by
    have := hentry p hp
    unfold entryKeyOk at this
    simpa [chunkIdOf, fusionSR] using this
  refine ⟨fusionSR p, hperm.mem_iff.mpr (List.mem_map_of_mem fusionSR hp), hid, ?_⟩
  exact (rrf_entry_char exVector exKeyword hv hk p hp).1

/-- C4 counterexample: on the spec's own example (vector [1, 2], keyword
[2, 3], k = 60) the code gives doc 2 the fused score 1/61 + 1/62 — its
rank in the vector list is 1, not 0 — and doc 3 the score 1/62, so the
claimed values 2/61 and 1/61 are wrong. -/
theorem rrf_fusion_example_counterexample :
    (∃ r ∈ reciprocalRankFusion exVector exKeyword 60,
        chunkIdOf r = "2" ∧ r.score = 1/61 + 1/62 ∧ ¬ r.score = 2/61) ∧
    (∃ r ∈ reciprocalRankFusion exVector exKeyword 60,
        chunkIdOf r = "3" ∧ r.score = 1/62 ∧ ¬ r.score = 1/61) := by
  constructor
  · obtain ⟨r, hr, hid, hsc⟩ := rrf_example_entry "2" (Or.inl (by decide))
    have hval : rrfSpecScore exVector exKeyword 60 "2" = 1/61 + 1/62 := by
      rw [rrfSpecScore,
        show rankIn exVector "2" = some 1 from by decide,
        show rankIn exKeyword "2" = some 0 from by decide]
      show 1 / ((60 : ℚ) + (1 : ℕ) + 1) + 1 / ((60 : ℚ) + (0 : ℕ) + 1) = 1/61 + 1/62
      norm_num
    refine ⟨r, hr, hid, hsc.trans hval, ?_⟩
    rw [hsc.trans hval]
    norm_num
  · obtain ⟨r, hr, hid, hsc⟩ := rrf_example_entry "3" (Or.inr (by decide))
    have hval : rrfSpecScore exVector exKeyword 60 "3" = 1/62 := by
      rw [rrfSpecScore,
        show rankIn exVector "3" = none from by decide,
        show rankIn exKeyword "3" = some 1 from by decide]
      show (0 : ℚ) + 1 / ((60 : ℚ) + (1 : ℕ) + 1) = 1/62
      norm_num
    refine ⟨r, hr, hid, hsc.trans hval, ?_⟩
    rw [hsc.trans hval]
    norm_num

theorem rrf_fusion_matches_spec_witness :
    ((exVector.map chunkIdOf).Nodup ∧ (exKeyword.map chunkIdOf).Nodup) ∧
    (∀ r ∈ reciprocalRankFusion exVector exKeyword 60, r.source = "hybrid") ∧
    List.Sorted (fun a b => b.score ≤ a.score)
      (reciprocalRankFusion exVector exKeyword 60) :=
  ⟨⟨by decide, by decide⟩,
    (rrf_fusion_matches_spec exVector exKeyword (by decide) (by decide)).1,
    (rrf_fusion_matches_spec exVector exKeyword (by decide) (by decide)).2.2.1⟩

/- ---------------------------------------------------------------------
Chunker, size pass (internal/indexing/chunker.go, splitLargeChunk of the
context-aware variant).

Go indexes strings by byte, so the chunk content is its byte sequence,
a `List ℕ`.  Brace scanning in findBlockBoundary iterates runes in Go,
but brace/bracket bytes only ever occur as single-byte runes and UTF-8
continuation bytes are never brace bytes, so the byte-wise scan below
classifies positions identically.  `ByteChunk` is the byte-level view of
domain.CodeChunk (timestamps and embedding omitted as before). -/

/-- Byte-level view of a code chunk for the splitter. -/
structure ByteChunk where
  id : String
  filePath : String
  language : String
  content : List ℕ
  chunkType : String
  startLine : Int
  endLine : Int
  metadata : List (String × String)
  dependencies : List String
deriving DecidableEq

/-- Go slice `xs[s:e]`. -/
def listExtract (xs : List ℕ) (s e : ℕ) : List ℕ := (xs.take e).drop s

/-- strings.LastIndex(window, two newlines): the last position where a
newline byte is immediately followed by another. -/
def lastIndexPair (w : List ℕ) : Option ℕ :=
  ((List.range w.length).filter
    (fun i => decide (w.get? i = some 10 ∧ w.get? (i + 1) = some 10))).getLast?

/-- strings.LastIndex(window, one newline). -/
def lastIndexNewline (w : List ℕ) : Option ℕ :=
  ((List.range w.length).filter (fun i => decide (w.get? i = some 10))).getLast?

/-- The scan of findBlockBoundary: walk the window tracking bracket
depth; remember the position just after the last closer that returns the
depth to zero (clamping negative depth to zero, as the source does). -/
def fbbLoop : List ℕ → ℕ → Int → Int → Int
  | [], _, _, lastZero => lastZero
  | b :: rest, i, depth, lastZero =>
    if b = 123 ∨ b = 40 ∨ b = 91 then fbbLoop rest (i + 1) (depth + 1) lastZero
    else if b = 125 ∨ b = 41 ∨ b = 93 then
      (if depth - 1 ≤ 0 then fbbLoop rest (i + 1) 0 ((i : Int) + 1)
       else fbbLoop rest (i + 1) (depth - 1) lastZero)
    else fbbLoop rest (i + 1) depth lastZero

/-- findBlockBoundary (the unused `end` parameter of the source is
dropped): −1 when no interior block boundary exists. -/
def findBlockBoundary (window : List ℕ) (start : ℕ) : Int :=
  let lastZero := fbbLoop window 0 0 (-1)
  if 0 < lastZero ∧ lastZero < (window.length : Int) then (start : Int) + lastZero
  else -1

/-- Strategy 3 of findContextAwareBreakPoint: a newline in the last
fifth of the window, else the hard window end. -/
def fcabpStrategy3 (window : List ℕ) (start endPos maxSize : ℕ) : ℕ :=
  let searchRange := maxSize / 5
  if 0 < searchRange then
    match lastIndexNewline window with
    | some ln => if maxSize - searchRange < ln then start + ln + 1 else endPos
    | none => endPos
  else endPos

/-- findContextAwareBreakPoint: block boundary, else last blank line,
else last newline in the final fifth of the window, else the window
end. -/
def findContextAwareBreakPoint (content : List ℕ) (start endPos maxSize : ℕ) : ℕ :=
  if content.length ≤ endPos then endPos
  else
    let window := listExtract content start endPos
    let bp := findBlockBoundary window start
    if (start : Int) < bp then bp.toNat
    else
      match lastIndexPair window with
      | some idx =>
        if 0 < idx then start + idx + 2
        else fcabpStrategy3 window start endPos maxSize
      | none => fcabpStrategy3 window start endPos maxSize

/-- calculateStep: `maxSize − overlap` clamped as in the source. -/
def calculateStep (maxSize overlap : ℕ) : ℕ :=
  let step : Int := (maxSize : Int) - (overlap : Int)
  if step < 1 then (if maxSize / 2 < 1 then 1 else maxSize / 2)
  else step.toNat

/-- nextStart: move forward by the step, never standing still. -/
def nextStart (currentStart step : ℕ) : ℕ :=
  if currentStart + step ≤ currentStart then currentStart + 1 else currentStart + step

/-- utf8.RuneStart on a byte. -/
def runeStart (b : ℕ) : Bool := b < 128 || 192 ≤ b

/-- The backwards rune-alignment loop of the overlap computation. -/
def alignBack (sub : List ℕ) : ℕ → ℕ
  | 0 => 0
  | i + 1 => if runeStart ((sub.get? (i + 1)).getD 0) then i + 1 else alignBack sub i

/-- The `"// ...context...\n"` banner as bytes. -/
def contextBanner : List ℕ := [47, 47, 32, 46, 46, 46, 99, 111, 110, 116, 101,
  120, 116, 46, 46, 46, 10]

/-- createSubChunk: slice-derived line numbers, deep-copied metadata with
start_line/end_line entries, fresh id. -/
def createSubChunk (genID : ByteChunk → String) (original : ByteChunk)
    (subContent : List ℕ) (startOffset : ℕ) : ByteChunk :=
  let startLine := original.startLine +
    ((listExtract original.content 0 startOffset).count 10 : Int)
  let endLine := startLine + (subContent.count 10 : Int)
  let meta := metaInsert
    (metaInsert (metaInsertAll [] original.metadata) "start_line" (toString startLine))
    "end_line" (toString endLine)
  let sub : ByteChunk :=
    { id := "", filePath := original.filePath, language := original.language
      content := subContent, chunkType := original.chunkType
      startLine := startLine, endLine := endLine, metadata := meta
      dependencies := original.dependencies }
  { sub with id := genID sub }

/-- The loop of splitLargeChunk, instrumented with the pair
(start, breakPoint) of each emitted sub-chunk (the sub-chunk list of the
source is the first projection).  The fuel only bounds iterations;
`content.length + 1` always suffices since the start strictly grows. -/
def splitLoop (genID : ByteChunk → String) (chunk : ByteChunk)
    (maxSize overlap : ℕ) : ℕ → ℕ → List ℕ → List (ByteChunk × ℕ × ℕ)
  | 0, _, _ => []
  | fuel + 1, start, prevOverlap =>
    if start < chunk.content.length then
      let endPos := min (start + maxSize) chunk.content.length
      let breakPoint := findContextAwareBreakPoint chunk.content start endPos maxSize
      let subContent := listExtract chunk.content start breakPoint
      let fullContent := if prevOverlap ≠ [] then prevOverlap ++ subContent
                         else subContent
      let subChunk := createSubChunk genID chunk fullContent start
      if chunk.content.length ≤ breakPoint then [(subChunk, start, breakPoint)]
      else
        let prevOverlap' :=
          if 0 < overlap ∧ 0 < subContent.length then
            let ovStart0 : Int := (subContent.length : Int) - (overlap : Int)
            let ovStart1 : ℕ := if ovStart0 < 0 then 0 else ovStart0.toNat
            let ovStart := alignBack subContent ovStart1
            contextBanner ++ listExtract subContent ovStart subContent.length
          else prevOverlap
        (subChunk, start, breakPoint) ::
          splitLoop genID chunk maxSize overlap fuel
            (nextStart start (calculateStep maxSize overlap)) prevOverlap'
    else []

/-- SemanticChunker.splitLargeChunk. -/
def splitLargeChunk (genID : ByteChunk → String) (chunk : ByteChunk)
    (maxSize overlap : ℕ) : List ByteChunk :=
  (splitLoop genID chunk maxSize overlap (chunk.content.length + 1) 0 []).map
    Prod.fst

/-- The (start, breakPoint) window of each emitted sub-chunk. -/
def splitRanges (genID : ByteChunk → String) (chunk : ByteChunk)
    (maxSize overlap : ℕ) : List (ℕ × ℕ) :=
  (splitLoop genID chunk maxSize overlap (chunk.content.length + 1) 0 []).map
    (fun x => (x.2.1, x.2.2))

/-- The break point picked by one iteration of the split loop. -/
def splitBP (c : ByteChunk) (start ms : ℕ) : ℕ :=
  findContextAwareBreakPoint c.content start (min (start + ms) c.content.length) ms

/-- The uncontextualized body of one iteration's sub-chunk. -/
def splitSub (c : ByteChunk) (start ms : ℕ) : List ℕ :=
  listExtract c.content start (splitBP c start ms)

/-- The body with the carried overlap prepended. -/
def splitFull (c : ByteChunk) (ms start : ℕ) (prev : List ℕ) : List ℕ :=
  if prev ≠ [] then prev ++ splitSub c start ms else splitSub c start ms

/-- The sub-chunk emitted by one iteration. -/
def splitPiece (g : ByteChunk → String) (c : ByteChunk) (ms start : ℕ)
    (prev : List ℕ) : ByteChunk :=
  createSubChunk g c (splitFull c ms start prev) start

/-- The overlap carried into the next iteration. -/
def splitNextPrev (c : ByteChunk) (ms ov start : ℕ) (prev : List ℕ) : List ℕ :=
  if 0 < ov ∧ 0 < (splitSub c start ms).length then
    let ovStart0 : Int := ((splitSub c start ms).length : Int) - (ov : Int)
    let ovStart1 : ℕ := if ovStart0 < 0 then 0 else ovStart0.toNat
    let ovStart := alignBack (splitSub c start ms) ovStart1
    contextBanner ++ listExtract (splitSub c start ms) ovStart
      (splitSub c start ms).length
  else prev

/-- Trivial id generator for the byte-level chunker examples. -/
def wGenB : ByteChunk → String := fun _ => "id"

/-- The chunk of the C1 counterexample: 14 pairwise-distinct bytes whose
second byte is a closing brace. -/
def cexChunk : ByteChunk :=
  { id := "", filePath := "f.go", language := "go"
    content := [97, 125, 30, 31, 32, 33, 34, 35, 36, 37, 50, 51, 52, 53]
    chunkType := "function", startLine := 1, endLine := 2, metadata := []
    dependencies := [] }

/-- The chunk of the C1 witness: 12 brace-free, newline-free bytes. -/
def wChunkC1 : ByteChunk :=
  { id := "", filePath := "f.go", language := "go"
    content := [20, 21, 22, 23, 24, 25, 26, 27, 28, 29, 60, 61]
    chunkType := "function", startLine := 1, endLine := 2, metadata := []
    dependencies := [] }

lemma getLast?_mem_list {α : Type} (l : List α) (a : α)
    (h : l.getLast? = some a) : a ∈ l := by
  obtain ⟨hne, heq⟩ := List.mem_getLast?_eq_getLast (Option.mem_def.mpr h)
  rw [heq]
  exact List.getLast_mem hne

lemma lastIndexPair_bound (w : List ℕ) (i : ℕ) (h : lastIndexPair w = some i) :
    i + 1 < w.length := by
  have hmem := getLast?_mem_list _ _ h
  have hp := of_decide_eq_true (List.mem_filter.mp hmem).2
  obtain ⟨hlt, -⟩ := List.get?_eq_some.mp hp.2
  exact hlt

lemma lastIndexNewline_bound (w : List ℕ) (i : ℕ)
    (h : lastIndexNewline w = some i) : i < w.length := by
  have hmem := getLast?_mem_list _ _ h
  have hp := of_decide_eq_true (List.mem_filter.mp hmem).2
  obtain ⟨hlt, -⟩ := List.get?_eq_some.mp hp
  exact hlt

lemma fcabpStrategy3_le (w : List ℕ) (start endPos maxSize : ℕ)
    (hlen : start + w.length ≤ endPos) :
    fcabpStrategy3 w start endPos maxSize ≤ endPos := by
  unfold fcabpStrategy3
  dsimp only
  split
  · cases hln : lastIndexNewline w with
    | none => exact le_refl _
    | some ln =>
      have hb := lastIndexNewline_bound w ln hln
      show (if maxSize - maxSize / 5 < ln then start + ln + 1 else endPos) ≤ endPos
      split
      · omega
      · exact le_refl _
  · exact le_refl _

lemma listExtract_length (xs : List ℕ) (s e : ℕ) :
    (listExtract xs s e).length = min e xs.length - s := by
  simp [listExtract]

lemma fcabp_le (content : List ℕ) (start endPos maxSize : ℕ)
    (hse : start ≤ endPos) (hle : endPos ≤ content.length) :
    findContextAwareBreakPoint content start endPos maxSize ≤ endPos := by
  have hwlen : (listExtract content start endPos).length = endPos - start := by
    rw [listExtract_length]; omega
  unfold findContextAwareBreakPoint
  split
  · exact le_refl _
  · dsimp only
    split
    · next hbp =>
      unfold findBlockBoundary at hbp ⊢
      dsimp only at hbp ⊢
      split at hbp
      · next hcond =>
        rw [if_pos hcond]
        rw [hwlen] at hcond
        omega
      · next hcond =>
        rw [if_neg hcond]
        omega
    · cases hlp : lastIndexPair (listExtract content start endPos) with
      | some idx =>
        have hb := lastIndexPair_bound _ idx hlp
        rw [hwlen] at hb
        show (if 0 < idx then start + idx + 2
          else fcabpStrategy3 (listExtract content start endPos) start endPos
            maxSize) ≤ endPos
        split
        · omega
        · exact fcabpStrategy3_le _ _ _ _ (by omega)
      | none =>
        exact fcabpStrategy3_le _ _ _ _ (by omega)

lemma fcabp_at_end (content : List ℕ) (start endPos maxSize : ℕ)
    (h : content.length ≤ endPos) :
    findContextAwareBreakPoint content start endPos maxSize = endPos := by
  unfold findContextAwareBreakPoint
  rw [if_pos h]

lemma calcStep_pos (ms ov : ℕ) : 0 < calculateStep ms ov := by
  unfold calculateStep
  dsimp only
  split
  · split <;> omega
  · next h => omega

lemma calcStep_le (ms ov : ℕ) (hms : 0 < ms) : calculateStep ms ov ≤ ms := by
  unfold calculateStep
  dsimp only
  split
  · split <;> omega
  · next h => omega

lemma splitLoop_eq_of_lt (g : ByteChunk → String) (c : ByteChunk)
    (ms ov n start : ℕ) (prev : List ℕ) (h : start < c.content.length) :
    splitLoop g c ms ov (n + 1) start prev =
      (if c.content.length ≤ splitBP c start ms then
        [(splitPiece g c ms start prev, start, splitBP c start ms)]
      else
        (splitPiece g c ms start prev, start, splitBP c start ms) ::
          splitLoop g c ms ov n (nextStart start (calculateStep ms ov))
            (splitNextPrev c ms ov start prev)) := by
  conv_lhs => unfold splitLoop
  rw [if_pos h]
  rfl

lemma splitLoop_ne_nil (g : ByteChunk → String) (c : ByteChunk)
    (ms ov n start : ℕ) (prev : List ℕ) (hn : 0 < n)
    (h : start < c.content.length) :
    splitLoop g c ms ov n start prev ≠ [] := by
  cases n with
  | zero => omega
  | succ m =>
    rw [splitLoop_eq_of_lt g c ms ov m start prev h]
    split <;> simp

lemma splitLoop_head_start (g : ByteChunk → String) (c : ByteChunk)
    (ms ov n start : ℕ) (prev : List ℕ) (hn : 0 < n)
    (h : start < c.content.length) :
    ∃ e rest, splitLoop g c ms ov n start prev = e :: rest ∧ e.2.1 = start := by
  cases n with
  | zero => omega
  | succ m =>
    rw [splitLoop_eq_of_lt g c ms ov m start prev h]
    split
    · exact ⟨_, _, rfl, rfl⟩
    · exact ⟨_, _, rfl, rfl⟩

lemma splitPiece_suffix (g : ByteChunk → String) (c : ByteChunk)
    (ms start : ℕ) (prev : List ℕ) :
    listExtract c.content start (splitBP c start ms) <:+
      (splitPiece g c ms start prev).content := by
  show listExtract c.content start (splitBP c start ms) <:+ splitFull c ms start prev
  unfold splitFull
  split
  · exact List.suffix_append _ _
  · exact List.suffix_refl _

lemma splitBP_le (c : ByteChunk) (start ms : ℕ) (h : start < c.content.length) :
    splitBP c start ms ≤ min (start + ms) c.content.length :=
  fcabp_le _ _ _ _ (le_min (Nat.le_add_right _ _) (le_of_lt h)) (min_le_right _ _)

lemma splitLoop_cover (g : ByteChunk → String) (c : ByteChunk) (ms ov : ℕ)
    (hms : 0 < ms) :
    ∀ (fuel start : ℕ) (prev : List ℕ),
      c.content.length - start < fuel →
      List.Chain' (fun r1 r2 : ℕ × ℕ => r2.1 ≤ r1.2)
        ((splitLoop g c ms ov fuel start prev).map (fun x => (x.2.1, x.2.2))) →
      ∀ p, start ≤ p → p < c.content.length →
        ∃ e ∈ splitLoop g c ms ov fuel start prev,
          e.2.1 ≤ p ∧ p < e.2.2 ∧
          listExtract c.content e.2.1 e.2.2 <:+ e.1.content := by
  intro fuel
  induction fuel with
  | zero => intro start prev hfuel; omega
  | succ n ih =>
    intro start prev hfuel hchain p hsp hp
    have hstart : start < c.content.length := lt_of_le_of_lt hsp hp
    rw [splitLoop_eq_of_lt g c ms ov n start prev hstart] at hchain ⊢
    by_cases hterm : c.content.length ≤ splitBP c start ms
    · rw [if_pos hterm] at hchain ⊢
      exact ⟨(splitPiece g c ms start prev, start, splitBP c start ms),
        List.mem_singleton_self _, hsp, lt_of_lt_of_le hp hterm,
        splitPiece_suffix g c ms start prev⟩
    · rw [if_neg hterm] at hchain ⊢
      push_neg at hterm
      by_cases hpb : p < splitBP c start ms
      · exact ⟨(splitPiece g c ms start prev, start, splitBP c start ms),
          List.mem_cons_self _ _, hsp, hpb, splitPiece_suffix g c ms start prev⟩
      · push_neg at hpb
        have hb_le := splitBP_le c start ms hstart
        have hEndLt : min (start + ms) c.content.length < c.content.length := by
          by_contra hc
          push_neg at hc
          have hmin : min (start + ms) c.content.length = c.content.length :=
            le_antisymm (min_le_right _ _) hc
          have : splitBP c start ms = c.content.length := by
            unfold splitBP
            rw [hmin]
            exact fcabp_at_end _ _ _ _ (le_refl _)
          omega
        have hms_lt : start + ms < c.content.length := by omega
        have hstep_le := calcStep_le ms ov hms
        have hstep_pos := calcStep_pos ms ov
        have hnext : nextStart start (calculateStep ms ov) =
            start + calculateStep ms ov := by
          unfold nextStart
          rw [if_neg]
          omega
        have hnext_lt : nextStart start (calculateStep ms ov) <
            c.content.length := by omega
        have hn_pos : 0 < n := by omega
        obtain ⟨e0, rest0, heq, hfst⟩ := splitLoop_head_start g c ms ov n
          (nextStart start (calculateStep ms ov))
          (splitNextPrev c ms ov start prev) hn_pos hnext_lt
        rw [List.map_cons, heq, List.map_cons] at hchain
        have hch2 := List.chain'_cons.mp hchain
        have hsb : nextStart start (calculateStep ms ov) ≤ splitBP c start ms := by
          have := hch2.1
          rw [hfst] at this
          exact this
        obtain ⟨e, he, h1, h2, h3⟩ := ih (nextStart start (calculateStep ms ov))
          (splitNextPrev c ms ov start prev) (by omega)
          (by rw [heq, List.map_cons]; exact hch2.2) p (by omega) hp
        exact ⟨e, List.mem_cons_of_mem _ he, h1, h2, h3⟩

/-- C1: the claim as stated is false.  Splitting a 14-byte chunk with
max_size 10 and overlap 0 whose second byte closes a brace produces the
sub-chunks over [0, 2) and [10, 14): the advance `nextStart(start, step)`
ignores the early break point, so bytes 2..9 — in particular the byte 30
at position 2, a value occurring nowhere else — appear in no sub-chunk. -/
theorem split_large_chunk_coverage_counterexample :
    10 < cexChunk.content.length ∧
    cexChunk.content.get? 2 = some 30 ∧
    ∀ piece ∈ splitLargeChunk wGenB cexChunk 10 0, (30 : ℕ) ∉ piece.content := by
  decide

/-- C1 (amended): when the emitted (start, breakPoint) windows chain —
each window starts no later than the previous one ends, which holds
whenever the step never overshoots a break point — every byte position of
a split chunk is covered: some sub-chunk's content contains, as a
contiguous slice, a segment of the original content surrounding that
position. -/
theorem split_large_chunk_covers_content_of_chained_ranges
    (genID : ByteChunk → String) (chunk : ByteChunk) (maxSize overlap : ℕ)
    (hms : 0 < maxSize)
    (hchain : List.Chain' (fun r1 r2 : ℕ × ℕ => r2.1 ≤ r1.2)
      (splitRanges genID chunk maxSize overlap)) :
    ∀ p < chunk.content.length,
      ∃ piece ∈ splitLargeChunk genID chunk maxSize overlap,
        ∃ s b, s ≤ p ∧ p < b ∧ listExtract chunk.content s b <:+ piece.content := by
  intro p hp
  obtain ⟨e, he, h1, h2, h3⟩ := splitLoop_cover genID chunk maxSize overlap hms
    (chunk.content.length + 1) 0 [] (by omega) hchain p (Nat.zero_le p) hp
  exact ⟨e.1, List.mem_map_of_mem _ he, e.2.1, e.2.2, h1, h2, h3⟩

/-- C1 witness: a 12-byte chunk split with max_size 10 and overlap 5 has
ranges [(0, 10), (5, 12)], which chain, and position 11 is covered. -/
lemma wChunkC1_ranges : splitRanges wGenB wChunkC1 10 5 =
    [((0 : ℕ), (10 : ℕ)), (5, 12)] := by decide

lemma wChunkC1_chain : List.Chain' (fun r1 r2 : ℕ × ℕ => r2.1 ≤ r1.2)
    (splitRanges wGenB wChunkC1 10 5) := by
  rw [wChunkC1_ranges]
  exact List.chain'_cons.mpr ⟨by decide, List.chain'_singleton _⟩

theorem split_large_chunk_covers_content_witness :
    (0 < 10 ∧ List.Chain' (fun r1 r2 : ℕ × ℕ => r2.1 ≤ r1.2)
      (splitRanges wGenB wChunkC1 10 5) ∧ 11 < wChunkC1.content.length) ∧
    ∃ piece ∈ splitLargeChunk wGenB wChunkC1 10 5,
      ∃ s b, s ≤ 11 ∧ 11 < b ∧ listExtract wChunkC1.content s b <:+ piece.content :=
  ⟨⟨by decide, wChunkC1_chain, by decide⟩,
    split_large_chunk_covers_content_of_chained_ranges wGenB wChunkC1 10 5
      (by decide) wChunkC1_chain 11 (by decide)⟩

/- ---------------------------------------------------------------------
Context expander (internal/retrieval/expander.go).

The chunk store is a point lookup `String → Except Unit (Option
CodeChunk)`: `.error ()` is a failed Get (skipped), `.ok none` a nil
chunk with nil error.  The shared `seen` map is a list of ids threaded
through every loop, mirroring the in-place mutation of the Go map.  The
recursion of getRelatedChunks is driven by a fuel that the top-level call
sets to maxDepth + 1; since every nested call increments `depth` and the
`depth ≥ MaxDepth` guard fires first, the fuel is never exhausted.
--------------------------------------------------------------------- -/

/-- retrieval.ExpandConfig. -/
structure ExpandConfig where
  includeCalledFunctions : Bool
  includeCallers : Bool
  includeImports : Bool
  includeParentType : Bool
  includeChildMethods : Bool
  maxDepth : Int
  maxChunks : Int
deriving DecidableEq

/-- DefaultExpandConfig. -/
def defaultExpandConfig : ExpandConfig :=
  { includeCalledFunctions := true, includeCallers := true
    includeImports := false, includeParentType := true
    includeChildMethods := true, maxDepth := 1, maxChunks := 50 }

/-- The search result built for an expansion hit. -/
def mkExpSR (ch : Option CodeChunk) (score : ℚ) (src : String) : SearchResult :=
  { chunk := ch, score := score, source := src, vectorScore := 0
    keywordScore := 0, relevanceScore := score }

/-- The graph relation names used by the expander. -/
def RelationCall : String := "call"

def RelationDefine : String := "define"

def RelationImport : String := "import"

/-- One non-recursive section of getRelatedChunks (callers, parent type,
child methods, imports): walk the node list, skipping seen ids and failed
fetches (and nil chunks where the source checks them), breaking at the
chunk budget, marking and appending each hit. -/
def sectionLoop (store : String → Except Unit (Option CodeChunk))
    (maxChunks currentCount : Int) (score : ℚ) (src : String)
    (checkNil : Bool) :
    List Node → List SearchResult → List String →
      List SearchResult × List String
  | [], related, seen => (related, seen)
  | node :: rest, related, seen =>
    if node.id ∈ seen then
      sectionLoop store maxChunks currentCount score src checkNil rest related seen
    else if maxChunks ≤ currentCount + (related.length : Int) then (related, seen)
    else
      match store node.id with
      | .error _ =>
        sectionLoop store maxChunks currentCount score src checkNil rest related seen
      | .ok ch =>
        if checkNil ∧ ch = none then
          sectionLoop store maxChunks currentCount score src checkNil rest related seen
        else
          sectionLoop store maxChunks currentCount score src checkNil rest
            (related ++ [mkExpSR ch score src]) (node.id :: seen)

/-- The inner append loop bounded by the chunk budget: append nested
results while `currentCount + len(related) < MaxChunks`. -/
def appendUpTo (maxChunks currentCount : Int) :
    List SearchResult → List SearchResult → List SearchResult
  | related, [] => related
  | related, n :: ns =>
    if maxChunks ≤ currentCount + (related.length : Int) then related
    else appendUpTo maxChunks currentCount (related ++ [n]) ns

/-- The callee section of getRelatedChunks: like `sectionLoop` but after
each hit it may recurse one level deeper (when `depth+1 < MaxDepth` and
the budget allows) and splice in the nested results up to the budget.
The recursive call is passed in as `recur`. -/
def calleeLoop (store : String → Except Unit (Option CodeChunk))
    (cfg : ExpandConfig)
    (recur : String → List String → Int → Int →
      List SearchResult × List String)
    (depth currentCount : Int) :
    List Node → List SearchResult → List String →
      List SearchResult × List String
  | [], related, seen => (related, seen)
  | node :: rest, related, seen =>
    if node.id ∈ seen then
      calleeLoop store cfg recur depth currentCount rest related seen
    else if cfg.maxChunks ≤ currentCount + (related.length : Int) then
      (related, seen)
    else
      match store node.id with
      | .error _ => calleeLoop store cfg recur depth currentCount rest related seen
      | .ok ch =>
        let seen1 := node.id :: seen
        let related1 := related ++ [mkExpSR ch (1/2) "expansion:callee"]
        if depth + 1 < cfg.maxDepth ∧
            currentCount + (related1.length : Int) < cfg.maxChunks then
          let nestedPair := recur node.id seen1 (depth + 1)
            (currentCount + (related1.length : Int))
          calleeLoop store cfg recur depth currentCount rest
            (appendUpTo cfg.maxChunks currentCount related1 nestedPair.1)
            nestedPair.2
        else calleeLoop store cfg recur depth currentCount rest related1 seen1

/-- The callee section of getRelatedChunks as a state transformer: run
only when the section's config flag is on. -/
def grcStage1 (store : String → Except Unit (Option CodeChunk))
    (cfg : ExpandConfig)
    (recur : String → List String → Int → Int →
      List SearchResult × List String)
    (nodes : List Node) (depth currentCount : Int)
    (cond : Bool) (s : List SearchResult × List String) :
    List SearchResult × List String :=
  if cond then calleeLoop store cfg recur depth currentCount nodes s.1 s.2
  else s

/-- A non-recursive section of getRelatedChunks as a state transformer:
run only when the flag is on and the budget is not yet reached. -/
def grcStage (store : String → Except Unit (Option CodeChunk))
    (maxChunks currentCount : Int) (score : ℚ) (src : String)
    (checkNil : Bool) (nodes : List Node) (cond : Bool)
    (s : List SearchResult × List String) :
    List SearchResult × List String :=
  if cond ∧ currentCount + (s.1.length : Int) < maxChunks then
    sectionLoop store maxChunks currentCount score src checkNil nodes s.1 s.2
  else s

/-- ContextExpander.getRelatedChunks: the five expansion sections in
source order, threading the shared seen set; returns the related results
and the updated seen set. -/
def getRelatedChunks (g : Graph)
    (store : String → Except Unit (Option CodeChunk)) (cfg : ExpandConfig) :
    ℕ → String → List String → Int → Int →
      List SearchResult × List String
  | 0, _, seen, _, _ => ([], seen)
  | fuel + 1, chunkID, seen, depth, currentCount =>
    if cfg.maxDepth ≤ depth then ([], seen)
    else if cfg.maxChunks ≤ currentCount then ([], seen)
    else
      grcStage store cfg.maxChunks currentCount (3/10) "expansion:import"
        false (g.getRelated chunkID RelationImport) cfg.includeImports
        (grcStage store cfg.maxChunks currentCount (11/20)
          "expansion:child_method" true (g.getRelated chunkID RelationDefine)
          cfg.includeChildMethods
          (grcStage store cfg.maxChunks currentCount (11/20)
            "expansion:parent_type" true (g.getIncoming chunkID RelationDefine)
            cfg.includeParentType
            (grcStage store cfg.maxChunks currentCount (2/5)
              "expansion:caller" false (g.getIncoming chunkID RelationCall)
              cfg.includeCallers
              (grcStage1 store cfg (getRelatedChunks g store cfg fuel)
                (g.getRelated chunkID RelationCall) depth currentCount
                cfg.includeCalledFunctions ([], seen)))))

/-- A result passes the validity filter of Expand when its chunk pointer
and chunk id are non-empty. -/
def validOriginal (r : SearchResult) : Bool :=
  match r.chunk with
  | none => false
  | some c => decide (c.id ≠ "")

/-- The original results kept by Expand. -/
def validOriginals (results : List SearchResult) : List SearchResult :=
  results.filter validOriginal

/-- The first loop of Expand: append every valid original (without any
budget or seen check) and mark its id as seen. -/
def expandPhase1 (results : List SearchResult) :
    List SearchResult × List String :=
  results.foldl
    (fun s r =>
      if validOriginal r then (s.1 ++ [r], chunkIdOf r :: s.2) else s)
    ([], [])

/-- The inner append loop of Expand's second phase: append related chunks
while `len(expanded) < MaxChunks`. -/
def appendAbs (maxChunks : Int) :
    List SearchResult → List SearchResult → List SearchResult
  | expanded, [] => expanded
  | expanded, ch :: rest =>
    if maxChunks ≤ (expanded.length : Int) then expanded
    else appendAbs maxChunks (expanded ++ [ch]) rest

/-- The second loop of Expand: for each valid original, once under the
budget, fetch its related chunks (threading the shared seen set) and
append them up to the budget. -/
def expandPhase2 (g : Graph)
    (store : String → Except Unit (Option CodeChunk)) (cfg : ExpandConfig) :
    List SearchResult → List SearchResult → List String → List SearchResult
  | [], expanded, _ => expanded
  | r :: rest, expanded, seen =>
    if validOriginal r then
      if cfg.maxChunks ≤ (expanded.length : Int) then expanded
      else
        let p := getRelatedChunks g store cfg (cfg.maxDepth.toNat + 1)
          (chunkIdOf r) seen 0 (expanded.length : Int)
        expandPhase2 g store cfg rest (appendAbs cfg.maxChunks expanded p.1) p.2
    else expandPhase2 g store cfg rest expanded seen

/-- ContextExpander.Expand (the nil-graph early return is not modelled:
the graph argument is always present).  The error return of the source is
always nil. -/
def Expand (g : Graph) (store : String → Except Unit (Option CodeChunk))
    (results : List SearchResult) (cfg : ExpandConfig) : List SearchResult :=
  let p := expandPhase1 results
  expandPhase2 g store cfg results p.1 p.2

/-- A benign chunk store: a fetch either fails or returns the chunk with
the queried id (never a nil chunk under a nil error). -/
def StoreOk (store : String → Except Unit (Option CodeChunk)) : Prop :=
  ∀ id, store id = .error () ∨ ∃ c, store id = .ok (some c) ∧ c.id = id

/-- The growth relation of the expansion loops: the seen set only grows,
and the result list is extended by chunks whose ids are fresh (absent
from the ingoing seen set), pairwise distinct, and marked seen. -/
def StGrows (s t : List SearchResult × List String) : Prop :=
  (∀ i ∈ s.2, i ∈ t.2) ∧
  ∃ ext, t.1 = s.1 ++ ext ∧ (ext.map chunkIdOf).Nodup ∧
    ∀ i ∈ ext.map chunkIdOf, i ∈ t.2 ∧ i ∉ s.2

lemma StGrows_refl (s : List SearchResult × List String) : StGrows s s :=
  ⟨fun _ h => h, [], (List.append_nil _).symm, List.nodup_nil, by simp⟩

lemma StGrows_trans {s t u : List SearchResult × List String}
    (h1 : StGrows s t) (h2 : StGrows t u) : StGrows s u := by
  obtain ⟨hs1, e1, he1, hn1, hm1⟩ := h1
  obtain ⟨hs2, e2, he2, hn2, hm2⟩ := h2
  refine ⟨fun i hi => hs2 _ (hs1 _ hi), e1 ++ e2,
    by rw [he2, he1, List.append_assoc], ?_, ?_⟩
  · rw [List.map_append]
    exact hn1.append hn2 (fun x hx1 hx2 => (hm2 x hx2).2 ((hm1 x hx1).1))
  · intro i hi
    rw [List.map_append, List.mem_append] at hi
    rcases hi with hi | hi
    · exact ⟨hs2 _ (hm1 i hi).1, (hm1 i hi).2⟩
    · exact ⟨(hm2 i hi).1, fun hc => (hm2 i hi).2 (hs1 _ hc)⟩

lemma StGrows_inv {rel seen rel' seen'}
    (h : StGrows (rel, seen) (rel', seen'))
    (hnd : (rel.map chunkIdOf).Nodup)
    (hsub : ∀ i ∈ rel.map chunkIdOf, i ∈ seen) :
    (rel'.map chunkIdOf).Nodup ∧ ∀ i ∈ rel'.map chunkIdOf, i ∈ seen' := by
  obtain ⟨hs, ext, he, hn, hm⟩ := h
  replace he : rel' = rel ++ ext := he
  replace hs : ∀ i ∈ seen, i ∈ seen' := hs
  replace hm : ∀ i ∈ ext.map chunkIdOf, i ∈ seen' ∧ i ∉ seen := hm
  constructor
  · rw [he, List.map_append]
    exact hnd.append hn (fun x hx1 hx2 => (hm x hx2).2 (hsub x hx1))
  · intro i hi
    rw [he, List.map_append, List.mem_append] at hi
    rcases hi with hi | hi
    · exact hs _ (hsub _ hi)
    · exact (hm _ hi).1

/-- Extending a state by a prefix of a fresh batch grows it. -/
lemma StGrows_appendTake {seen : List String}
    {p : List SearchResult × List String}
    (h : StGrows ([], seen) p) (rel : List SearchResult) (k : ℕ) :
    StGrows (rel, seen) (rel ++ p.1.take k, p.2) := by
  obtain ⟨hs, ext, he, hn, hm⟩ := h
  have hext : p.1 = ext := by rw [he]; simp
  refine ⟨hs, p.1.take k, rfl, ?_, ?_⟩
  · rw [List.map_take]
    exact (hext ▸ hn).sublist (List.take_sublist _ _)
  · intro i hi
    rw [List.map_take] at hi
    have := List.take_subset k (p.1.map chunkIdOf) hi
    rw [hext] at this
    exact hm i this

/-- Appending a single fresh hit grows the state. -/
lemma StGrows_push {related seen} (node : Node) (r : SearchResult)
    (hid : chunkIdOf r = node.id) (hns : node.id ∉ seen) :
    StGrows (related, seen) (related ++ [r], node.id :: seen) := by
  refine ⟨fun i hi => List.mem_cons_of_mem _ hi, [r], rfl, List.nodup_singleton _, ?_⟩
  intro i hi
  simp only [List.map_cons, List.map_nil, List.mem_singleton] at hi
  subst hi
  rw [hid]
  exact ⟨List.mem_cons_self _ _, hns⟩

lemma sectionLoop_grows (store : String → Except Unit (Option CodeChunk))
    (hstore : StoreOk store) (mc cc : Int) (score : ℚ) (src : String)
    (cn : Bool) :
    ∀ (nodes : List Node) (related : List SearchResult) (seen : List String),
      StGrows (related, seen)
        (sectionLoop store mc cc score src cn nodes related seen) := by
  intro nodes
  induction nodes with
  | nil => intro related seen; exact StGrows_refl _
  | cons node rest ih =>
    intro related seen
    simp only [sectionLoop]
    by_cases h1 : node.id ∈ seen
    · rw [if_pos h1]; exact ih related seen
    · rw [if_neg h1]
      by_cases h2 : mc ≤ cc + (related.length : Int)
      · rw [if_pos h2]; exact StGrows_refl _
      · rw [if_neg h2]
        rcases hstore node.id with herr | ⟨c, hok, hcid⟩
        · simp only [herr]; exact ih related seen
        · simp only [hok]
          rw [if_neg (by simp)]
          exact StGrows_trans
            (StGrows_push node (mkExpSR (some c) score src) (by simp [mkExpSR, chunkIdOf, hcid]) h1)
            (ih _ _)

lemma appendUpTo_eq_take (mc cc : Int) :
    ∀ (ns rel : List SearchResult), ∃ k, appendUpTo mc cc rel ns = rel ++ ns.take k := by
  intro ns
  induction ns with
  | nil => intro rel; exact ⟨0, by simp [appendUpTo]⟩
  | cons n rest ih =>
    intro rel
    by_cases h : mc ≤ cc + (rel.length : Int)
    · refine ⟨0, ?_⟩
      simp only [appendUpTo]
      rw [if_pos h]
      simp
    · obtain ⟨k, hk⟩ := ih (rel ++ [n])
      refine ⟨k + 1, ?_⟩
      simp only [appendUpTo]
      rw [if_neg h, hk, List.take_succ_cons, List.append_assoc]
      rfl

lemma calleeLoop_grows (store : String → Except Unit (Option CodeChunk))
    (hstore : StoreOk store) (cfg : ExpandConfig)
    (recur : String → List String → Int → Int →
      List SearchResult × List String)
    (hrec : ∀ id seen d c, StGrows ([], seen) (recur id seen d c))
    (depth cc : Int) :
    ∀ (nodes : List Node) (related : List SearchResult) (seen : List String),
      StGrows (related, seen)
        (calleeLoop store cfg recur depth cc nodes related seen) := by
  intro nodes
  induction nodes with
  | nil => intro related seen; exact StGrows_refl _
  | cons node rest ih =>
    intro related seen
    simp only [calleeLoop]
    by_cases h1 : node.id ∈ seen
    · rw [if_pos h1]; exact ih related seen
    · rw [if_neg h1]
      by_cases h2 : cfg.maxChunks ≤ cc + (related.length : Int)
      · rw [if_pos h2]; exact StGrows_refl _
      · rw [if_neg h2]
        rcases hstore node.id with herr | ⟨c, hok, hcid⟩
        · simp only [herr]; exact ih related seen
        · simp only [hok]
          have hpush := @StGrows_push related seen node
            (mkExpSR (some c) (1/2) "expansion:callee")
            (by simp [mkExpSR, chunkIdOf, hcid]) h1
          by_cases h3 : depth + 1 < cfg.maxDepth ∧
              cc + ((related ++ [mkExpSR (some c) (1/2) "expansion:callee"]).length : Int) <
                cfg.maxChunks
          · rw [if_pos h3]
            obtain ⟨k, hk⟩ := appendUpTo_eq_take cfg.maxChunks cc
              (recur node.id (node.id :: seen) (depth + 1)
                (cc + ((related ++ [mkExpSR (some c) (1/2) "expansion:callee"]).length : Int))).1
              (related ++ [mkExpSR (some c) (1/2) "expansion:callee"])
            rw [hk]
            exact StGrows_trans hpush (StGrows_trans
              (StGrows_appendTake (hrec node.id (node.id :: seen) (depth + 1) _) _ k)
              (ih _ _))
          · rw [if_neg h3]
            exact StGrows_trans hpush (ih _ _)

lemma grcStage_grows (store : String → Except Unit (Option CodeChunk))
    (hstore : StoreOk store) (mc cc : Int) (score : ℚ) (src : String)
    (cn : Bool) (nodes : List Node) (cond : Bool)
    (s : List SearchResult × List String) :
    StGrows s (grcStage store mc cc score src cn nodes cond s) := by
  unfold grcStage
  split
  · exact sectionLoop_grows store hstore mc cc score src cn nodes s.1 s.2
  · exact StGrows_refl s

lemma grcStage1_grows (store : String → Except Unit (Option CodeChunk))
    (hstore : StoreOk store) (cfg : ExpandConfig)
    (recur : String → List String → Int → Int →
      List SearchResult × List String)
    (hrec : ∀ id seen d c, StGrows ([], seen) (recur id seen d c))
    (nodes : List Node) (depth cc : Int) (cond : Bool)
    (s : List SearchResult × List String) :
    StGrows s (grcStage1 store cfg recur nodes depth cc cond s) := by
  unfold grcStage1
  split
  · exact calleeLoop_grows store hstore cfg recur hrec depth cc nodes s.1 s.2
  · exact StGrows_refl s

lemma grc_grows (g : Graph) (store : String → Except Unit (Option CodeChunk))
    (cfg : ExpandConfig) (hstore : StoreOk store) :
    ∀ (fuel : ℕ) (chunkID : String) (seen : List String) (depth cc : Int),
      StGrows ([], seen) (getRelatedChunks g store cfg fuel chunkID seen depth cc) := by
  intro fuel
  induction fuel with
  | zero => intro chunkID seen depth cc; exact StGrows_refl _
  | succ n ih =>
    intro chunkID seen depth cc
    simp only [getRelatedChunks]
    by_cases hd : cfg.maxDepth ≤ depth
    · rw [if_pos hd]; exact StGrows_refl _
    · rw [if_neg hd]
      by_cases hc : cfg.maxChunks ≤ cc
      · rw [if_pos hc]; exact StGrows_refl _
      · rw [if_neg hc]
        exact StGrows_trans
          (StGrows_trans
            (StGrows_trans
              (StGrows_trans
                (grcStage1_grows store hstore cfg _ ih _ depth cc _ _)
                (grcStage_grows store hstore _ _ _ _ _ _ _ _))
              (grcStage_grows store hstore _ _ _ _ _ _ _ _))
            (grcStage_grows store hstore _ _ _ _ _ _ _ _))
          (grcStage_grows store hstore _ _ _ _ _ _ _ _)

lemma appendAbs_eq_take (mc : Int) :
    ∀ (ns exp : List SearchResult), ∃ k, appendAbs mc exp ns = exp ++ ns.take k := by
  intro ns
  induction ns with
  | nil => intro exp; exact ⟨0, by simp [appendAbs]⟩
  | cons n rest ih =>
    intro exp
    by_cases h : mc ≤ (exp.length : Int)
    · refine ⟨0, ?_⟩
      simp only [appendAbs]
      rw [if_pos h]
      simp
    · obtain ⟨k, hk⟩ := ih (exp ++ [n])
      refine ⟨k + 1, ?_⟩
      simp only [appendAbs]
      rw [if_neg h, hk, List.take_succ_cons, List.append_assoc]
      rfl

lemma appendAbs_len (mc : Int) :
    ∀ (ns exp : List SearchResult),
      ((appendAbs mc exp ns).length : Int) ≤ max (exp.length : Int) mc := by
  intro ns
  induction ns with
  | nil => intro exp; simp [appendAbs]
  | cons n rest ih =>
    intro exp
    simp only [appendAbs]
    by_cases h : mc ≤ (exp.length : Int)
    · rw [if_pos h]; exact le_max_left _ _
    · rw [if_neg h]
      have := ih (exp ++ [n])
      have hlen : ((exp ++ [n]).length : Int) = (exp.length : Int) + 1 := by
        simp
      omega

lemma phase2_len (g : Graph) (store : String → Except Unit (Option CodeChunk))
    (cfg : ExpandConfig) :
    ∀ (rs exp : List SearchResult) (seen : List String),
      ((expandPhase2 g store cfg rs exp seen).length : Int) ≤
        max (exp.length : Int) cfg.maxChunks := by
  intro rs
  induction rs with
  | nil => intro exp seen; simp [expandPhase2]
  | cons r rest ih =>
    intro exp seen
    simp only [expandPhase2]
    by_cases hv : validOriginal r
    · rw [if_pos hv]
      by_cases hb : cfg.maxChunks ≤ (exp.length : Int)
      · rw [if_pos hb]; exact le_max_left _ _
      · rw [if_neg hb]
        have h1 := ih (appendAbs cfg.maxChunks exp
          (getRelatedChunks g store cfg (cfg.maxDepth.toNat + 1) (chunkIdOf r)
            seen 0 (exp.length : Int)).1)
          (getRelatedChunks g store cfg (cfg.maxDepth.toNat + 1) (chunkIdOf r)
            seen 0 (exp.length : Int)).2
        have h2 := appendAbs_len cfg.maxChunks
          (getRelatedChunks g store cfg (cfg.maxDepth.toNat + 1) (chunkIdOf r)
            seen 0 (exp.length : Int)).1 exp
        omega
    · rw [if_neg hv]; exact ih exp seen

lemma phase2_nodup (g : Graph) (store : String → Except Unit (Option CodeChunk))
    (cfg : ExpandConfig) (hstore : StoreOk store) :
    ∀ (rs exp : List SearchResult) (seen : List String),
      (exp.map chunkIdOf).Nodup → (∀ i ∈ exp.map chunkIdOf, i ∈ seen) →
      ((expandPhase2 g store cfg rs exp seen).map chunkIdOf).Nodup := by
  intro rs
  induction rs with
  | nil => intro exp seen hnd _; exact hnd
  | cons r rest ih =>
    intro exp seen hnd hsub
    simp only [expandPhase2]
    by_cases hv : validOriginal r
    · rw [if_pos hv]
      by_cases hb : cfg.maxChunks ≤ (exp.length : Int)
      · rw [if_pos hb]; exact hnd
      · rw [if_neg hb]
        have hg := grc_grows g store cfg hstore (cfg.maxDepth.toNat + 1)
          (chunkIdOf r) seen 0 (exp.length : Int)
        obtain ⟨k, hk⟩ := appendAbs_eq_take cfg.maxChunks
          (getRelatedChunks g store cfg (cfg.maxDepth.toNat + 1) (chunkIdOf r)
            seen 0 (exp.length : Int)).1 exp
        rw [hk]
        obtain ⟨hnd', hsub'⟩ := StGrows_inv (StGrows_appendTake hg exp k) hnd hsub
        exact ih _ _ hnd' hsub'
    · rw [if_neg hv]; exact ih exp seen hnd hsub

lemma expandPhase1_go (rs : List SearchResult) :
    ∀ acc : List SearchResult × List String,
      rs.foldl
        (fun s r =>
          if validOriginal r then (s.1 ++ [r], chunkIdOf r :: s.2) else s) acc =
        (acc.1 ++ validOriginals rs,
          ((validOriginals rs).map chunkIdOf).reverse ++ acc.2) := by
  induction rs with
  | nil => intro acc; simp [validOriginals]
  | cons r rest ih =>
    intro acc
    rw [List.foldl_cons]
    by_cases hv : validOriginal r
    · rw [if_pos hv, ih]
      simp [validOriginals, List.filter_cons, hv]
    · rw [if_neg hv, ih]
      simp [validOriginals, List.filter_cons, hv]

lemma expandPhase1_eq (rs : List SearchResult) :
    expandPhase1 rs =
      (validOriginals rs, ((validOriginals rs).map chunkIdOf).reverse) := by
  unfold expandPhase1
  rw [expandPhase1_go]
  simp

/-- The chunk of the C2 example results. -/
def cexEChunk : CodeChunk :=
  { id := "a", filePath := "f.go", language := "go", content := "x"
    chunkType := "function", startLine := 1, endLine := 1, metadata := []
    dependencies := [], embedding := [] }

/-- A valid search result with chunk id "a". -/
def cexERes : SearchResult :=
  { chunk := some cexEChunk, score := 1, source := "vector", vectorScore := 1
    keywordScore := 0, relevanceScore := 0 }

/-- A store whose every fetch fails. -/
def cexStore : String → Except Unit (Option CodeChunk) := fun _ => .error ()

/-- The default expansion config with a budget of one chunk. -/
def cexECfg : ExpandConfig := { defaultExpandConfig with maxChunks := 1 }

/-- C2: the claim as stated is false.  The first loop of Expand appends
every valid original without consulting the budget or the seen set, so
with budget max_chunks = 1 and the same result twice in the input, the
output holds two results — over budget — with the same chunk id. -/
theorem expand_budget_and_dedup_counterexample :
    cexECfg.maxChunks = 1 ∧
    (Expand Graph.emptyGraph cexStore [cexERes, cexERes] cexECfg).map chunkIdOf =
      ["a", "a"] ∧
    ¬(((Expand Graph.emptyGraph cexStore [cexERes, cexERes] cexECfg).length : Int) ≤
      cexECfg.maxChunks) ∧
    ¬((Expand Graph.emptyGraph cexStore [cexERes, cexERes] cexECfg).map
      chunkIdOf).Nodup := by
  decide

/-- C2 (amended): the budget and the seen set govern only the expansion
phase.  For every graph, benign store (each fetch fails or returns the
chunk with the queried id), config and input list, the output length is
at most max(number of valid originals, max_chunks); and when the valid
originals carry pairwise-distinct chunk ids, the whole output does too —
every chunk appended during expansion has an id absent from the seen set
at that moment, and is then marked seen. -/
theorem expand_bounded_and_deduplicated (g : Graph)
    (store : String → Except Unit (Option CodeChunk))
    (results : List SearchResult) (cfg : ExpandConfig)
    (hstore : StoreOk store)
    (hnodup : ((validOriginals results).map chunkIdOf).Nodup) :
    ((Expand g store results cfg).length : Int) ≤
      max ((validOriginals results).length : Int) cfg.maxChunks ∧
    ((Expand g store results cfg).map chunkIdOf).Nodup := by
  have hexp : Expand g store results cfg =
      expandPhase2 g store cfg results (validOriginals results)
        (((validOriginals results).map chunkIdOf).reverse) := by
    unfold Expand
    rw [expandPhase1_eq]
  rw [hexp]
  constructor
  · exact phase2_len g store cfg results (validOriginals results) _
  · exact phase2_nodup g store cfg hstore results (validOriginals results) _
      hnodup (fun i hi => List.mem_reverse.mpr hi)

/-- C2 witness: a single valid original under budget 1: the output is
that original, within the bound and duplicate-free. -/
theorem expand_bounded_and_deduplicated_witness :
    (StoreOk cexStore ∧ ((validOriginals [cexERes]).map chunkIdOf).Nodup) ∧
    (((Expand Graph.emptyGraph cexStore [cexERes] cexECfg).length : Int) ≤
        max ((validOriginals [cexERes]).length : Int) cexECfg.maxChunks ∧
      ((Expand Graph.emptyGraph cexStore [cexERes] cexECfg).map chunkIdOf).Nodup) :=
  ⟨⟨fun _ => Or.inl rfl, by decide⟩,
    expand_bounded_and_deduplicated Graph.emptyGraph cexStore [cexERes] cexECfg
      (fun _ => Or.inl rfl) (by decide)⟩

/- ---------------------------------------------------------------------
Indexer.IndexFile (src/unnamed/part_004): hash-gated incremental
indexing.

The pipeline components behind the indexer (parser, chunker, embedder,
vector store, keyword indexer, graph builder) are interfaces; they enter
as an environment of functions, deterministic per path — the premise of
the claim is that the file bytes do not change between the calls.  The
state carries the fileHashes map, the sparse index (the RedisState of the
keyword indexer) and one ghost counter per pipeline stage, counting the
calls that the source performs; the keyword indexer and graph are taken
as present (non-nil).  hashFile is the environment's `hash` (MD5 of the
file bytes, or an error); as in the source, a hash error leaves
currentHash empty, which disables both the skip and the recording. -/

/-- The indexing environment: one function per pipeline interface. -/
structure IndexerEnv where
  language : String → String
  hash : String → Except Unit String
  parse : String → Except Unit (List CodeChunk)
  chunk : List CodeChunk → Except Unit (List CodeChunk)
  embedOk : List CodeChunk → Bool
  storeOk : List CodeChunk → Bool
  keywordAdd : List CodeChunk → RedisState → RedisState

/-- The indexer state: the hash map, the sparse index, and a ghost call
counter per pipeline stage. -/
structure IndexerState where
  fileHashes : String → Option String
  sparse : RedisState
  parseCalls : ℕ
  chunkCalls : ℕ
  embedCalls : ℕ
  deleteCalls : ℕ
  storeCalls : ℕ
  keywordCalls : ℕ
  graphBuilds : ℕ

/-- The `seen && previousHash == currentHash` test of IndexFile. -/
def hashMatches (st : IndexerState) (path h : String) : Bool :=
  match st.fileHashes path with
  | some prev => prev == h
  | none => false

/-- IndexFile from the parse on: parse, zero-chunk early return, chunk,
embed, delete, store, keyword index, graph build, and — only when every
stage succeeded and the hash was computed — the hash recording. -/
def indexFileBody (env : IndexerEnv) (path : String) (st : IndexerState)
    (currentHash : String) : IndexerState × Except Unit Unit :=
  match env.parse path with
  | .error _ => ({ st with parseCalls := st.parseCalls + 1 }, .error ())
  | .ok chunks =>
    let st1 := { st with parseCalls := st.parseCalls + 1 }
    if chunks.length = 0 then (st1, .ok ())
    else
      match env.chunk chunks with
      | .error _ => ({ st1 with chunkCalls := st1.chunkCalls + 1 }, .error ())
      | .ok processed =>
        let st2 := { st1 with chunkCalls := st1.chunkCalls + 1 }
        if env.embedOk processed then
          let st3 := { st2 with embedCalls := st2.embedCalls + 1 }
          let st4 := { st3 with deleteCalls := st3.deleteCalls + 1 }
          if env.storeOk processed then
            let st5 := { st4 with storeCalls := st4.storeCalls + 1 }
            let st6 := { st5 with
              sparse := env.keywordAdd processed st5.sparse
              keywordCalls := st5.keywordCalls + 1 }
            let st7 := { st6 with graphBuilds := st6.graphBuilds + 1 }
            let st8 := if currentHash ≠ "" then
                { st7 with fileHashes := fun k =>
                    if k = path then some currentHash else st7.fileHashes k }
              else st7
            (st8, .ok ())
          else ({ st4 with storeCalls := st4.storeCalls + 1 }, .error ())
        else ({ st2 with embedCalls := st2.embedCalls + 1 }, .error ())

/-- Indexer.IndexFile: the unknown-language gate, the hash-gated skip,
then the pipeline body. -/
def IndexFile (env : IndexerEnv) (path : String) (st : IndexerState) :
    IndexerState × Except Unit Unit :=
  if env.language path = "unknown" then (st, .ok ())
  else
    match env.hash path with
    | .error _ => indexFileBody env path st ""
    | .ok h =>
      if hashMatches st path h then (st, .ok ())
      else indexFileBody env path st h

/-- The initial indexer state. -/
def initIndexer : IndexerState :=
  { fileHashes := fun _ => none, sparse := initRedis, parseCalls := 0
    chunkCalls := 0, embedCalls := 0, deleteCalls := 0, storeCalls := 0
    keywordCalls := 0, graphBuilds := 0 }

/-- The C6 counterexample environment: a Go file whose parse succeeds
with zero chunks. -/
def cexIdxEnv : IndexerEnv :=
  { language := fun _ => "go"
    hash := fun _ => .ok "d41d8cd98f00b204e9800998ecf8427e"
    parse := fun _ => .ok []
    chunk := fun cs => .ok cs
    embedOk := fun _ => true
    storeOk := fun _ => true
    keywordAdd := fun _ s => s }

lemma hashMatches_eq {st : IndexerState} {path h : String}
    (hm : hashMatches st path h = true) : st.fileHashes path = some h := by
  unfold hashMatches at hm
  cases hfh : st.fileHashes path with
  | none => rw [hfh] at hm; cases hm
  | some prev =>
    rw [hfh] at hm
    simp only [beq_iff_eq] at hm
    rw [hm]

lemma hashMatches_of {st : IndexerState} {path h : String}
    (hfh : st.fileHashes path = some h) : hashMatches st path h = true := by
  unfold hashMatches
  rw [hfh]
  simp

/-- C6: the claim as stated is false.  A file whose first IndexFile call
succeeds via the zero-chunk early return records no hash, so the second
call on the unchanged file re-runs the parser instead of skipping. -/
theorem index_file_hash_skip_counterexample :
    (IndexFile cexIdxEnv "f.go" initIndexer).2 = .ok () ∧
    (IndexFile cexIdxEnv "f.go" initIndexer).1.parseCalls = 1 ∧
    (IndexFile cexIdxEnv "f.go" initIndexer).1.fileHashes "f.go" = none ∧
    (IndexFile cexIdxEnv "f.go"
      ((IndexFile cexIdxEnv "f.go" initIndexer).1)).1.parseCalls = 2 :=
  ⟨rfl, rfl, rfl, rfl⟩

/-- C6 (amended): when the first call succeeds on a known language with a
computed (non-empty) hash and a non-empty parse, it records the hash, and
the second call on the unchanged file returns the state completely
untouched with a nil error: no parse, chunk, embed, delete, store,
keyword-index or graph-build call happens and the sparse index is
identical.  A first call that succeeds through the zero-chunk early
return records nothing, so only the non-empty-parse case skips. -/
theorem index_file_unchanged_second_call_skips
    (env : IndexerEnv) (path : String) (st : IndexerState) (h : String)
    (hlang : env.language path ≠ "unknown")
    (hhash : env.hash path = .ok h)
    (hne : h ≠ "")
    (hchunks : ∃ chunks, env.parse path = .ok chunks ∧ chunks ≠ [])
    (hfirst : (IndexFile env path st).2 = .ok ()) :
    (IndexFile env path st).1.fileHashes path = some h ∧
    IndexFile env path ((IndexFile env path st).1) =
      ((IndexFile env path st).1, .ok ()) := by
  obtain ⟨chunks, hp, hcne⟩ := hchunks
  have hlen : ¬(chunks.length = 0) := by
    simpa [List.length_eq_zero] using hcne
  have hrec : (IndexFile env path st).1.fileHashes path = some h := by
    unfold IndexFile at hfirst ⊢
    rw [if_neg hlang] at hfirst ⊢
    simp only [hhash] at hfirst ⊢
    by_cases hm : hashMatches st path h
    · rw [if_pos hm] at hfirst ⊢
      exact hashMatches_eq hm
    · rw [if_neg hm] at hfirst ⊢
      unfold indexFileBody at hfirst ⊢
      simp only [hp] at hfirst ⊢
      rw [if_neg hlen] at hfirst ⊢
      cases hch : env.chunk chunks with
      | error e => simp [hch] at hfirst
      | ok processed =>
        simp only [hch] at hfirst ⊢
        by_cases hemb : env.embedOk processed
        · rw [if_pos hemb] at hfirst ⊢
          by_cases hst : env.storeOk processed
          · rw [if_pos hst] at hfirst ⊢
            rw [if_pos hne]
            simp
          · rw [if_neg hst] at hfirst
            simp at hfirst
        · rw [if_neg hemb] at hfirst
          simp at hfirst
  have hskip : ∀ st1 : IndexerState, st1.fileHashes path = some h →
      IndexFile env path st1 = (st1, .ok ()) := by
    intro st1 hr
    unfold IndexFile
    rw [if_neg hlang]
    simp only [hhash]
    rw [if_pos (hashMatches_of hr)]
  exact ⟨hrec, hskip _ hrec⟩

/-- The C6 witness environment: a one-chunk Go file with a computed
hash. -/
def wIdxEnv : IndexerEnv :=
  { language := fun _ => "go"
    hash := fun _ => .ok "abc123"
    parse := fun _ => .ok [cexEChunk]
    chunk := fun cs => .ok cs
    embedOk := fun _ => true
    storeOk := fun _ => true
    keywordAdd := fun _ s => s }

/-- C6 witness: one successful non-empty indexing run records the hash
and the second call skips, leaving the state untouched. -/
theorem index_file_unchanged_second_call_skips_witness :
    (wIdxEnv.language "f.go" ≠ "unknown" ∧ wIdxEnv.hash "f.go" = .ok "abc123" ∧
      "abc123" ≠ "" ∧
      (∃ chunks, wIdxEnv.parse "f.go" = .ok chunks ∧ chunks ≠ []) ∧
      (IndexFile wIdxEnv "f.go" initIndexer).2 = .ok ()) ∧
    ((IndexFile wIdxEnv "f.go" initIndexer).1.fileHashes "f.go" = some "abc123" ∧
      IndexFile wIdxEnv "f.go" ((IndexFile wIdxEnv "f.go" initIndexer).1) =
        ((IndexFile wIdxEnv "f.go" initIndexer).1, .ok ())) :=
  ⟨⟨by decide, rfl, by decide, ⟨[cexEChunk], rfl, by simp⟩, rfl⟩,
    index_file_unchanged_second_call_skips wIdxEnv "f.go" initIndexer "abc123"
      (by decide) rfl (by decide) ⟨[cexEChunk], rfl, by simp⟩ rfl⟩

end RagCode
